import Mathlib

/-!
# Verification of the YTPTube client stores and utility helpers

Shallow embedding of the YTPTube frontend code:

* the realtime socket store of the Nuxt UI (TypeScript `useSocketStore`,
  handlers `connected`, `item_added`, `log_*`, `item_completed`,
  `item_cancelled`, `item_deleted`, `item_updated`, `item_moved`,
  `paused`/`resumed`),
* the legacy JavaScript socket store (`ui/stores/SocketStore.js`), and
* the utility module (`iTrim`/`eTrim`/`sTrim`, `uri`, `encode`, `decode`).

The download-queue engine itself (dispatcher / worker pool) is not part of
the available sources; it is modelled from the specification where a claim
needs it (see `Engine` below).
-/

namespace YTPTube

/-! ## Client-side state store

The socket handlers manipulate two keyed collections (`queue` and
`history`) through a `stateStore` with `has` / `get` / `add` / `update` /
`remove` / `addAll` operations, a configuration store, and a toast
notifier.  The `stateStore` implementation is not among the available
sources, only its callers are. -/

/-- One Job record as the client sees it.  The handlers never inspect the
payload beyond its `title` (used in toast messages), so the remaining
fields are kept opaque. -/
structure StoreItem where
  title : String
  blob : Nat
  deriving DecidableEq, Repr

/-- A keyed collection of Job records, keyed by the `_id` field. -/
abbrev Coll := List (String × StoreItem)

/-- Modelled from the spec: the client state store keeps "Job records keyed
by id" — `stateStore.has(coll, id)` tests key membership. -/
def hasItem (c : Coll) (id : String) : Bool :=
  c.any (fun p => p.1 == id)

/-- Modelled from the spec: `stateStore.get(coll, id, default)` returns the
record stored under `id`, if any. -/
def getItem (c : Coll) (id : String) : Option StoreItem :=
  (c.find? (fun p => p.1 == id)).map (fun p => p.2)

/-- Modelled from the spec: `stateStore.remove(coll, id)` deletes the record
keyed by `id`. -/
def removeItem (c : Coll) (id : String) : Coll :=
  c.filter (fun p => !(p.1 == id))

/-- Modelled from the spec: `stateStore.add(coll, id, item)` stores `item`
under key `id` (insert-or-replace). -/
def addItem (c : Coll) (id : String) (v : StoreItem) : Coll :=
  (id, v) :: removeItem c id

/-- Modelled from the spec: `stateStore.update(coll, id, item)` replaces the
record stored under `id`, leaving the collection unchanged when `id` is
absent. -/
def updateItem (c : Coll) (id : String) (v : StoreItem) : Coll :=
  c.map (fun p => if p.1 == id then (p.1, v) else p)

/-- Modelled from the spec: `stateStore.addAll(coll, entries)` adds every
entry of a keyed payload to the collection. -/
def addAllItems (c : Coll) (es : List (String × StoreItem)) : Coll :=
  es.foldl (fun acc e => addItem acc e.1 e.2) c

/-- Toast severity, as exposed by `useNotification`
(`toast.info` / `toast.success` / `toast.warning` / `toast.error`). -/
inductive Severity where
  | info
  | success
  | warning
  | error
  deriving DecidableEq, Repr

/-- One raised toast: severity, message (`Option` because the JS value may
be `undefined`), and the optional `timeout` option. -/
structure Notice where
  severity : Severity
  message : Option String
  timeout : Option Nat
  deriving DecidableEq, Repr

/-- Client configuration state (`useConfigStore`).  The handlers copy the
payload fields verbatim, so every field except the pause flag is opaque. -/
structure ConfigState where
  app : Nat
  tasks : Nat
  folders : Nat
  presets : Nat
  dl_fields : Nat
  paused : Bool
  deriving DecidableEq, Repr

/-- The whole client state touched by the socket handlers: the two keyed
collections, the configuration, and the toasts raised so far. -/
structure ClientState where
  queue : Coll
  history : Coll
  config : ConfigState
  notices : List Notice
  deriving DecidableEq, Repr

/-! ## Handlers of the TypeScript socket store -/

/-- Payload of the connect-time `connected` snapshot event
(`json.data.…`).  `queue`/`done` are `Option` to model the JS
`json.data.queue || {}` default. -/
structure Snapshot where
  app : Nat
  tasks : Nat
  folders : Nat
  presets : Nat
  dl_fields : Nat
  paused : Bool
  queue : Option (List (String × StoreItem))
  done : Option (List (String × StoreItem))

/-- The `connected` handler: `config.setAll({app, tasks, folders, presets,
dl_fields, paused})`, then `stateStore.addAll('queue', json.data.queue || {})`
and `stateStore.addAll('history', json.data.done || {})`. -/
def onConnected (s : ClientState) (snap : Snapshot) : ClientState :=
  { s with
    config :=
      { app := snap.app
        tasks := snap.tasks
        folders := snap.folders
        presets := snap.presets
        dl_fields := snap.dl_fields
        paused := snap.paused }
    queue := addAllItems s.queue (snap.queue.getD [])
    history := addAllItems s.history (snap.done.getD []) }

/-- The four log event kinds handled by
`on(['log_info','log_success','log_warning','log_error'], …)`. -/
inductive LogKind where
  | log_info
  | log_success
  | log_warning
  | log_error
  deriving DecidableEq, Repr

/-- The toast severity selected by the `switch (event)` of the log
handler. -/
def sevOfLog : LogKind → Severity
  | .log_info => .info
  | .log_success => .success
  | .log_warning => .warning
  | .log_error => .error

/-- Payload of a log event: `json?.message` and `json?.data?.message`
(`none` models a missing/`undefined` field). -/
structure LogPayload where
  message : Option String
  dataMessage : Option String

/-- JavaScript `a || b` on two possibly-missing strings: `a` when it is
present and truthy (non-empty), otherwise `b`. -/
def jsOrStr (a b : Option String) : Option String :=
  match a with
  | some m => if m = "" then b else some m
  | none => b

/-- The log handler: `const message = json?.message || json?.data?.message`
followed by exactly one `toast.<kind>(message, data)`. -/
def onLogEvent (s : ClientState) (k : LogKind) (p : LogPayload) : ClientState :=
  { s with
    notices := s.notices ++ [⟨sevOfLog k, jsOrStr p.message p.dataMessage, none⟩] }

/-- The `item_completed` handler: remove the id from `queue` when present,
then update `history` when the id is already there, otherwise add it. -/
def onItemCompleted (s : ClientState) (id : String) (item : StoreItem) : ClientState :=
  let s1 := if hasItem s.queue id then { s with queue := removeItem s.queue id } else s
  if hasItem s1.history id then
    { s1 with history := updateItem s1.history id item }
  else
    { s1 with history := addItem s1.history id item }

/-- `ag(stateStore.get('queue', id, {}), 'title')`, rendered into the toast
message. -/
def titleOf (o : Option StoreItem) : String :=
  match o with
  | some it => it.title
  | none => "null"

/-- The `item_cancelled` handler: return unless the id is in `queue`;
otherwise raise a warning toast and remove it from `queue`. -/
def onItemCancelled (s : ClientState) (id : String) : ClientState :=
  if !hasItem s.queue id then s
  else
    let s1 :=
      { s with
        notices := s.notices ++
          [⟨Severity.warning,
            some ("Download cancelled: " ++ titleOf (getItem s.queue id)), none⟩] }
    if hasItem s1.queue id then { s1 with queue := removeItem s1.queue id } else s1

/-- The `item_deleted` handler: return unless the id is in `history`;
otherwise remove it from `history`. -/
def onItemDeleted (s : ClientState) (id : String) : ClientState :=
  if !hasItem s.history id then s
  else { s with history := removeItem s.history id }

/-- The `item_moved` handler: on `to === 'queue'` drop the id from
`history` when present and add the item to `queue`; on `to === 'history'`
drop it from `queue` when present and add it to `history`.  The two
conditionals run in sequence, exactly as in the source. -/
def onItemMoved (s : ClientState) (dest : String) (id : String) (item : StoreItem) :
    ClientState :=
  let s1 :=
    if dest == "queue" then
      let h := if hasItem s.history id then removeItem s.history id else s.history
      { s with history := h, queue := addItem s.queue id item }
    else s
  if dest == "history" then
    let q := if hasItem s1.queue id then removeItem s1.queue id else s1.queue
    { s1 with queue := q, history := addItem s1.history id item }
  else s1

/-- The event names served by the combined `on(['paused','resumed'], …)`
handler of the TypeScript store. -/
inductive PauseEvent where
  | pausedEv
  | resumedEv
  deriving DecidableEq, Repr

/-- The TypeScript `paused`/`resumed` handler: set
`config.paused := Boolean(json.data.paused)`, then toast success on the
`resumed` event and warning (with a 10 s timeout) on the `paused` event. -/
def tsOnPauseEvent (s : ClientState) (ev : PauseEvent) (p : Bool) : ClientState :=
  let s1 := { s with config := { s.config with paused := p } }
  match ev with
  | .resumedEv =>
    { s1 with notices := s1.notices ++ [⟨Severity.success, some "Download queue resumed.", none⟩] }
  | .pausedEv =>
    { s1 with notices := s1.notices ++ [⟨Severity.warning, some "Download queue paused.", some 10000⟩] }

/-- The legacy JavaScript `paused` handler: set
`config.paused := Boolean(json.paused)`, then toast success when the flag
is false and warning (with a 10 s timeout) when it is true. -/
def jsOnPaused (s : ClientState) (p : Bool) : ClientState :=
  let s1 := { s with config := { s.config with paused := p } }
  if p = false then
    { s1 with notices := s1.notices ++ [⟨Severity.success, some "Download queue resumed.", none⟩] }
  else
    { s1 with notices := s1.notices ++ [⟨Severity.warning, some "Download queue paused.", some 10000⟩] }

/-! ## Collection lemmas -/

theorem hasItem_addItem_self (c : Coll) (a : String) (v : StoreItem) :
    hasItem (addItem c a v) a = true := by
  simp [hasItem, addItem]

theorem hasItem_removeItem_self (c : Coll) (a : String) :
    hasItem (removeItem c a) a = false := by
  simp only [hasItem, removeItem]
  rw [Bool.eq_false_iff]
  intro h
  rcases List.any_eq_true.mp h with ⟨x, hx, hxa⟩
  rw [List.mem_filter] at hx
  rcases hx with ⟨-, hxna⟩
  simp only [beq_iff_eq] at hxa
  simp [hxa] at hxna

theorem hasItem_addItem_of (c : Coll) (a b : String) (v : StoreItem)
    (h : hasItem c b = true) : hasItem (addItem c a v) b = true := by
  by_cases hba : b = a
  · subst hba
    exact hasItem_addItem_self c b v
  · simp only [hasItem] at h
    rcases List.any_eq_true.mp h with ⟨x, hx, hxb⟩
    simp only [hasItem, addItem, removeItem]
    refine List.any_eq_true.mpr ⟨x, ?_, hxb⟩
    simp only [List.mem_cons, List.mem_filter]
    right
    refine ⟨hx, ?_⟩
    have hxb' : x.1 = b := by simpa using hxb
    simp [hxb', hba]

theorem hasItem_updateItem (c : Coll) (a b : String) (v : StoreItem) :
    hasItem (updateItem c a v) b = hasItem c b := by
  simp only [hasItem, updateItem, List.any_map]
  apply congrArg
  funext p
  by_cases hp : p.1 = a
  · simp [Function.comp, hp]
  · simp [Function.comp, hp]

theorem hasItem_addAllItems (c : Coll) (es : List (String × StoreItem)) (b : String)
    (h : hasItem c b = true ∨ ∃ v, (b, v) ∈ es) :
    hasItem (addAllItems c es) b = true := by
  induction es generalizing c with
  | nil =>
    rcases h with h | ⟨v, hv⟩
    · simpa [addAllItems] using h
    · simp at hv
  | cons e tl ih =>
    show hasItem (addAllItems (addItem c e.1 e.2) tl) b = true
    apply ih
    rcases h with h | ⟨v, hv⟩
    · left
      exact hasItem_addItem_of _ _ _ _ h
    · rcases List.mem_cons.mp hv with he | htl
      · left
        have hb : b = e.1 := by rw [← he]
        rw [hb]
        exact hasItem_addItem_self _ _ _
      · right
        exact ⟨v, htl⟩

/-! ## Claims about the socket handlers -/

/-- C2: for every `item_moved` event with destination `d ∈ {queue, history}`
and every client state, after the `item_moved` handler runs the item is
present in collection `d` and absent from the other collection, so the item
ends up in exactly one of {active queue, history}. -/
theorem itemMoved_exclusive (s : ClientState) (id : String) (item : StoreItem)
    (dest : String) :
    (dest = "queue" →
      hasItem (onItemMoved s dest id item).queue id = true ∧
      hasItem (onItemMoved s dest id item).history id = false) ∧
    (dest = "history" →
      hasItem (onItemMoved s dest id item).history id = true ∧
      hasItem (onItemMoved s dest id item).queue id = false) := by
  constructor
  · intro h
    subst h
    unfold onItemMoved
    refine ⟨?_, ?_⟩ <;>
      by_cases hh : hasItem s.history id = true <;>
        simp [hh, hasItem_addItem_self, hasItem_removeItem_self, Bool.eq_false_iff]
  · intro h
    subst h
    unfold onItemMoved
    refine ⟨?_, ?_⟩ <;>
      by_cases hq : hasItem s.queue id = true <;>
        simp [hq, hasItem_addItem_self, hasItem_removeItem_self, Bool.eq_false_iff]

/-- Witness for C2 at a concrete state: moving item `a` to the queue leaves
it present in the queue and absent from the history. -/
theorem itemMoved_exclusive_witness :
    hasItem (onItemMoved ⟨[], [("a", ⟨"t", 0⟩)], ⟨0, 0, 0, 0, 0, false⟩, []⟩
      "queue" "a" ⟨"t", 0⟩).queue "a" = true ∧
    hasItem (onItemMoved ⟨[], [("a", ⟨"t", 0⟩)], ⟨0, 0, 0, 0, 0, false⟩, []⟩
      "queue" "a" ⟨"t", 0⟩).history "a" = false :=
  (itemMoved_exclusive ⟨[], [("a", ⟨"t", 0⟩)], ⟨0, 0, 0, 0, 0, false⟩, []⟩
    "a" ⟨"t", 0⟩ "queue").1 rfl

/-- C3: the connect-time snapshot handler sets the client configuration
(app config, scheduled tasks, folders, presets, download fields, pause
flag) to the snapshot's values, and every entry of the snapshot's active
queue and history payloads ends up present in the corresponding client
collection. -/
theorem connected_snapshot (s : ClientState) (snap : Snapshot) :
    (onConnected s snap).config =
      ⟨snap.app, snap.tasks, snap.folders, snap.presets, snap.dl_fields, snap.paused⟩ ∧
    (∀ kv ∈ snap.queue.getD [], hasItem (onConnected s snap).queue kv.1 = true) ∧
    (∀ kv ∈ snap.done.getD [], hasItem (onConnected s snap).history kv.1 = true) := by
  refine ⟨rfl, ?_, ?_⟩
  · intro kv hkv
    exact hasItem_addAllItems _ _ _ (Or.inr ⟨kv.2, hkv⟩)
  · intro kv hkv
    exact hasItem_addAllItems _ _ _ (Or.inr ⟨kv.2, hkv⟩)

/-- Witness for C3 at a concrete snapshot: the configuration is copied and
the snapshot's queue entry is present afterwards. -/
theorem connected_snapshot_witness :
    (onConnected ⟨[], [], ⟨0, 0, 0, 0, 0, false⟩, []⟩
      ⟨1, 2, 3, 4, 5, true, some [("a", ⟨"t", 0⟩)], none⟩).config = ⟨1, 2, 3, 4, 5, true⟩ ∧
    hasItem (onConnected ⟨[], [], ⟨0, 0, 0, 0, 0, false⟩, []⟩
      ⟨1, 2, 3, 4, 5, true, some [("a", ⟨"t", 0⟩)], none⟩).queue "a" = true :=
  ⟨(connected_snapshot ⟨[], [], ⟨0, 0, 0, 0, 0, false⟩, []⟩
      ⟨1, 2, 3, 4, 5, true, some [("a", ⟨"t", 0⟩)], none⟩).1,
   (connected_snapshot ⟨[], [], ⟨0, 0, 0, 0, 0, false⟩, []⟩
      ⟨1, 2, 3, 4, 5, true, some [("a", ⟨"t", 0⟩)], none⟩).2.1 ("a", ⟨"t", 0⟩)
      (List.mem_singleton.mpr rfl)⟩

/-- C4: after the `item_completed` handler runs, the Job is absent from the
active queue and present in history (added if new, updated if already
there) — in every client state. -/
theorem itemCompleted_moves_to_history (s : ClientState) (id : String) (item : StoreItem) :
    hasItem (onItemCompleted s id item).queue id = false ∧
    hasItem (onItemCompleted s id item).history id = true := by
  unfold onItemCompleted
  by_cases hq : hasItem s.queue id = true <;>
    by_cases hh : hasItem s.history id = true <;>
      simp [hq, hh, hasItem_removeItem_self, hasItem_updateItem, hasItem_addItem_self,
        Bool.eq_false_iff]

/-- C5 counterexample: in a client state where id `a` sits in both
collections (which the claim does not exclude), the `item_cancelled`
handler removes `a` from the queue but leaves it in the history, so `a` is
not absent from both. -/
theorem itemCancelled_claim_counterexample :
    ¬ (hasItem (onItemCancelled
          ⟨[("a", ⟨"t", 0⟩)], [("a", ⟨"t", 0⟩)], ⟨0, 0, 0, 0, 0, false⟩, []⟩ "a").queue "a" = false ∧
       hasItem (onItemCancelled
          ⟨[("a", ⟨"t", 0⟩)], [("a", ⟨"t", 0⟩)], ⟨0, 0, 0, 0, 0, false⟩, []⟩ "a").history "a" = false) := by
  decide

/-- C5 (amended): for every Job id that is in the active queue and not in
the history collection when its `item_cancelled` event is processed
(the spec's "exactly one of {active queue, history}" invariant), after the
handler runs that Job is absent from both collections; the handler itself
never touches the history. -/
theorem itemCancelled_removes (s : ClientState) (id : String)
    (hq : hasItem s.queue id = true) (hh : hasItem s.history id = false) :
    hasItem (onItemCancelled s id).queue id = false ∧
    hasItem (onItemCancelled s id).history id = false := by
  unfold onItemCancelled
  simp [hq, hh, hasItem_removeItem_self]

/-- Witness for C5 (amended) at a concrete state with `a` pending in the
queue only. -/
theorem itemCancelled_removes_witness :
    hasItem (onItemCancelled ⟨[("a", ⟨"t", 0⟩)], [], ⟨0, 0, 0, 0, 0, false⟩, []⟩ "a").queue "a" = false ∧
    hasItem (onItemCancelled ⟨[("a", ⟨"t", 0⟩)], [], ⟨0, 0, 0, 0, 0, false⟩, []⟩ "a").history "a" = false :=
  itemCancelled_removes ⟨[("a", ⟨"t", 0⟩)], [], ⟨0, 0, 0, 0, 0, false⟩, []⟩ "a"
    (by decide) (by decide)

/-- C6: the `item_deleted` handler removes the Job from history when it is
present there, and leaves the active queue collection unchanged in all
cases. -/
theorem itemDeleted_removes_history_only (s : ClientState) (id : String) :
    (hasItem s.history id = true → hasItem (onItemDeleted s id).history id = false) ∧
    (onItemDeleted s id).queue = s.queue := by
  constructor
  · intro hh
    unfold onItemDeleted
    simp [hh, hasItem_removeItem_self]
  · unfold onItemDeleted
    by_cases hh : hasItem s.history id = true <;> simp [hh]

/-- Witness for C6 at a concrete state with `a` in the history. -/
theorem itemDeleted_removes_history_only_witness :
    hasItem (onItemDeleted ⟨[("b", ⟨"u", 1⟩)], [("a", ⟨"t", 0⟩)], ⟨0, 0, 0, 0, 0, false⟩, []⟩ "a").history "a" = false ∧
    (onItemDeleted ⟨[("b", ⟨"u", 1⟩)], [("a", ⟨"t", 0⟩)], ⟨0, 0, 0, 0, 0, false⟩, []⟩ "a").queue = [("b", ⟨"u", 1⟩)] :=
  ⟨(itemDeleted_removes_history_only
      ⟨[("b", ⟨"u", 1⟩)], [("a", ⟨"t", 0⟩)], ⟨0, 0, 0, 0, 0, false⟩, []⟩ "a").1 (by decide),
   (itemDeleted_removes_history_only
      ⟨[("b", ⟨"u", 1⟩)], [("a", ⟨"t", 0⟩)], ⟨0, 0, 0, 0, 0, false⟩, []⟩ "a").2⟩

/-- C7: for every log event of kind `k ∈ {info, success, warning, error}`
carrying a (truthy) message `m`, the log handler raises exactly one client
notification, of severity `k` and with message `m`, and modifies neither
the queue nor the history collection. -/
theorem logEvent_notifies (s : ClientState) (k : LogKind) (p : LogPayload) (m : String)
    (hm : p.message = some m) (hm' : m ≠ "") :
    (onLogEvent s k p).notices = s.notices ++ [⟨sevOfLog k, some m, none⟩] ∧
    (onLogEvent s k p).queue = s.queue ∧
    (onLogEvent s k p).history = s.history := by
  unfold onLogEvent jsOrStr
  rw [hm]
  simp [hm']

/-- Witness for C7: a concrete `log_error` event appends exactly one error
notice and leaves both collections unchanged. -/
theorem logEvent_notifies_witness :
    (onLogEvent ⟨[], [], ⟨0, 0, 0, 0, 0, false⟩, []⟩ LogKind.log_error ⟨some "boom", none⟩).notices =
      [⟨Severity.error, some "boom", none⟩] ∧
    (onLogEvent ⟨[], [], ⟨0, 0, 0, 0, 0, false⟩, []⟩ LogKind.log_error ⟨some "boom", none⟩).queue = [] ∧
    (onLogEvent ⟨[], [], ⟨0, 0, 0, 0, 0, false⟩, []⟩ LogKind.log_error ⟨some "boom", none⟩).history = [] :=
  logEvent_notifies ⟨[], [], ⟨0, 0, 0, 0, 0, false⟩, []⟩ LogKind.log_error
    ⟨some "boom", none⟩ "boom" rfl (by decide)

/-- C9: the legacy JS `paused` handler (payload `{paused: p}`) and the
newer TS `paused`/`resumed` handlers (payload `{data: {paused: p}}`, with
the event name matching the flag) leave the client in the same state: the
config pause flag equals `p`, and the single raised notification has
severity success when `p` is false (resumed) and warning when `p` is true
(paused). -/
theorem pausedHandlers_equivalent (s : ClientState) (p : Bool) (ev : PauseEvent)
    (hev : ev = (if p then PauseEvent.pausedEv else PauseEvent.resumedEv)) :
    tsOnPauseEvent s ev p = jsOnPaused s p ∧
    (jsOnPaused s p).config.paused = p ∧
    (jsOnPaused s p).notices = s.notices ++
      [if p then ⟨Severity.warning, some "Download queue paused.", some 10000⟩
       else ⟨Severity.success, some "Download queue resumed.", none⟩] := by
  subst hev
  cases p <;> simp [tsOnPauseEvent, jsOnPaused]

/-- Witness for C9 at `p = true` on a concrete state. -/
theorem pausedHandlers_equivalent_witness :
    tsOnPauseEvent ⟨[], [], ⟨0, 0, 0, 0, 0, false⟩, []⟩ PauseEvent.pausedEv true =
      jsOnPaused ⟨[], [], ⟨0, 0, 0, 0, 0, false⟩, []⟩ true ∧
    (jsOnPaused ⟨[], [], ⟨0, 0, 0, 0, 0, false⟩, []⟩ true).config.paused = true ∧
    (jsOnPaused ⟨[], [], ⟨0, 0, 0, 0, 0, false⟩, []⟩ true).notices =
      [⟨Severity.warning, some "Download queue paused.", some 10000⟩] :=
  pausedHandlers_equivalent ⟨[], [], ⟨0, 0, 0, 0, 0, false⟩, []⟩ true
    PauseEvent.pausedEv rfl

/-! ## The download-queue engine

The dispatcher / worker-pool code itself is not among the available
sources (only the spec describes it), so the engine is modelled from the
spec: §4.2 job state machine, §4.3 dispatcher, §5 pause semantics. -/

/-- Modelled from the spec: the Job status enum of §4.2/§4.3
(`pending → downloading → {postprocessing → completed | error} | completed
| error`, and `pending|downloading → cancelled`). -/
inductive JobStatus where
  | pending
  | downloading
  | postprocessing
  | completed
  | error
  | cancelled
  deriving DecidableEq, Repr

/-- Terminal statuses: `completed`, `error`, `cancelled` (spec §4.2). -/
def JobStatus.isTerminal : JobStatus → Bool
  | .completed => true
  | .error => true
  | .cancelled => true
  | _ => false

/-- A status that occupies a worker slot: a slot is held from dispatch
until a terminal transition (spec §4.3: "a slot finishing a Job (any
terminal transition) immediately becomes eligible to pull again"). -/
def JobStatus.isBusy : JobStatus → Bool
  | .downloading => true
  | .postprocessing => true
  | _ => false

/-- Modelled from the spec: the engine state — the shared queue store
(jobs keyed by id, in insertion order) plus the process-wide pause flag
(§9: "model as an explicit Engine state object"). -/
structure Engine where
  jobs : List (Nat × JobStatus)
  paused : Bool

/-- Number of jobs currently holding a given status. -/
def countStatus (js : List (Nat × JobStatus)) (st : JobStatus) : Nat :=
  js.countP (fun j => j.2 == st)

/-- Number of jobs currently occupying a worker slot. -/
def busyCount (js : List (Nat × JobStatus)) : Nat :=
  js.countP (fun j => j.2.isBusy)

/-- Modelled from the spec: one engine transition.  Submission appends a
pending Job; `pending → downloading` happens only when the dispatcher is
not paused and holds a free worker slot (§4.2 transition guard, §4.3
"maintains exactly N concurrent execution slots"); the remaining
transitions follow the §4.2 state machine; deletion is an explicit user
action on a terminal Job; pause/resume toggle the process-wide flag. -/
inductive Step (N : Nat) : Engine → Engine → Prop where
  | submit (e : Engine) (id : Nat) :
      Step N e ⟨e.jobs ++ [(id, .pending)], e.paused⟩
  | dispatch (l1 l2 : List (Nat × JobStatus)) (id : Nat)
      (h : busyCount (l1 ++ (id, .pending) :: l2) < N) :
      Step N ⟨l1 ++ (id, .pending) :: l2, false⟩ ⟨l1 ++ (id, .downloading) :: l2, false⟩
  | startPostprocessing (l1 l2 : List (Nat × JobStatus)) (id : Nat) (p : Bool) :
      Step N ⟨l1 ++ (id, .downloading) :: l2, p⟩ ⟨l1 ++ (id, .postprocessing) :: l2, p⟩
  | complete (l1 l2 : List (Nat × JobStatus)) (id : Nat) (p : Bool) (st : JobStatus)
      (h : st = .downloading ∨ st = .postprocessing) :
      Step N ⟨l1 ++ (id, st) :: l2, p⟩ ⟨l1 ++ (id, .completed) :: l2, p⟩
  | fail (l1 l2 : List (Nat × JobStatus)) (id : Nat) (p : Bool) :
      Step N ⟨l1 ++ (id, .downloading) :: l2, p⟩ ⟨l1 ++ (id, .error) :: l2, p⟩
  | cancel (l1 l2 : List (Nat × JobStatus)) (id : Nat) (p : Bool) (st : JobStatus)
      (h : st = .pending ∨ st = .downloading) :
      Step N ⟨l1 ++ (id, st) :: l2, p⟩ ⟨l1 ++ (id, .cancelled) :: l2, p⟩
  | deleteJob (l1 l2 : List (Nat × JobStatus)) (id : Nat) (p : Bool) (st : JobStatus)
      (h : st.isTerminal = true) :
      Step N ⟨l1 ++ (id, st) :: l2, p⟩ ⟨l1 ++ l2, p⟩
  | pause (e : Engine) : Step N e ⟨e.jobs, true⟩
  | resume (e : Engine) : Step N e ⟨e.jobs, false⟩

/-- Engine states reachable from the empty, unpaused initial state. -/
inductive Reachable (N : Nat) : Engine → Prop where
  | init : Reachable N ⟨[], false⟩
  | step (e e' : Engine) : Reachable N e → Step N e e' → Reachable N e'

/-- The worker-slot invariant: in every reachable state at most `N` Jobs
occupy a slot (are `downloading` or `postprocessing`). -/
theorem busyCount_le (N : Nat) (e : Engine) (h : Reachable N e) :
    busyCount e.jobs ≤ N := by
  induction h with
  | init => simp [busyCount]
  | step e e' hr hstep ih =>
    cases hstep with
    | submit e id =>
      simp [busyCount, List.countP_append, List.countP_cons, JobStatus.isBusy] at *
      omega
    | dispatch l1 l2 id hfree =>
      simp [busyCount, List.countP_append, List.countP_cons, JobStatus.isBusy] at *
      omega
    | startPostprocessing l1 l2 id p =>
      simp [busyCount, List.countP_append, List.countP_cons, JobStatus.isBusy] at *
      omega
    | complete l1 l2 id p st hst =>
      rcases hst with hst | hst <;> subst hst <;>
        · simp [busyCount, List.countP_append, List.countP_cons, JobStatus.isBusy] at *
          omega
    | fail l1 l2 id p =>
      simp [busyCount, List.countP_append, List.countP_cons, JobStatus.isBusy] at *
      omega
    | cancel l1 l2 id p st hst =>
      rcases hst with hst | hst <;> subst hst <;>
        · simp [busyCount, List.countP_append, List.countP_cons, JobStatus.isBusy] at *
          omega
    | deleteJob l1 l2 id p st hst =>
      simp [busyCount, List.countP_append, List.countP_cons, JobStatus.isBusy] at *
      omega
    | pause e =>
      simpa [busyCount] using ih
    | resume e =>
      simpa [busyCount] using ih

/-- C1: for every pool size `N` and every reachable engine state, the
number of Jobs whose status is `downloading` is at most `N`. -/
theorem downloading_le_poolSize (N : Nat) (e : Engine) (h : Reachable N e) :
    countStatus e.jobs .downloading ≤ N := by
  have hb := busyCount_le N e h
  have hmono : countStatus e.jobs .downloading ≤ busyCount e.jobs := by
    apply List.countP_mono_left
    intro j _ hj
    have : j.2 = .downloading := by simpa using hj
    simp [this, JobStatus.isBusy]
  omega

/-- Witness for C1: after submitting and dispatching one Job with pool
size 1, the reachable state has at most one downloading Job. -/
theorem downloading_le_poolSize_witness :
    countStatus [((0 : Nat), JobStatus.downloading)] JobStatus.downloading ≤ 1 :=
  downloading_le_poolSize 1 ⟨[(0, .downloading)], false⟩
    (Reachable.step _ _
      (Reachable.step _ _ Reachable.init (Step.submit ⟨[], false⟩ 0))
      (Step.dispatch [] [] 0 (by decide)))

/-! ## Utility helpers: `iTrim` / `eTrim` / `sTrim` and `uri`

JavaScript strings are modelled by `String` (a list of Unicode scalar
values); `startsWith`/`endsWith` are prefix/suffix tests on the character
list. -/

/-- JavaScript `s.startsWith(p)`. -/
def jsStartsWith (s p : String) : Bool :=
  p.data.isPrefixOf s.data

/-- JavaScript `s.endsWith(p)`. -/
def jsEndsWith (s p : String) : Bool :=
  p.data.isSuffixOf s.data

/-- The `position` argument of `iTrim` (`'start' | 'end' | 'both'`). -/
inductive TrimPos where
  | start
  | stop
  | both
  deriving DecidableEq, Repr

/-- `str.replace(new RegExp('^[delim]+'), '')` for a single-character
delimiter: drop every leading occurrence of the character. -/
def trimStartChar (s : String) (d : Char) : String :=
  ⟨s.data.dropWhile (· == d)⟩

/-- `str.replace(new RegExp('[delim]+$'), '')` for a single-character
delimiter: drop every trailing occurrence of the character. -/
def trimEndChar (s : String) (d : Char) : String :=
  ⟨(s.data.reverse.dropWhile (· == d)).reverse⟩

/-- The `iTrim` helper: return the falsy string unchanged, otherwise strip
the delimiter character from the requested end(s). -/
def iTrim (s : String) (d : Char) (pos : TrimPos) : String :=
  if s = "" then s
  else
    match pos with
    | .both => trimEndChar (trimStartChar s d) d
    | .start => trimStartChar s d
    | .stop => trimEndChar s d

/-- `eTrim(str, delim) = iTrim(str, delim, 'end')`. -/
def eTrim (s : String) (d : Char) : String := iTrim s d .stop

/-- `sTrim(str, delim) = iTrim(str, delim, 'start')`. -/
def sTrim (s : String) (d : Char) : String := iTrim s d .start

/-- The `uri` helper: return `u` unchanged when it is falsy, when the base
URL is `'/'`, when `u` does not start with `'/'`, or when `u` already
starts with the base URL; otherwise prefix the slash-trimmed base. -/
def uri (base : String) (u : String) : String :=
  if u == "" || base == "/" || !(jsStartsWith u "/") then u
  else if jsStartsWith u base then u
  else eTrim base '/' ++ "/" ++ sTrim u '/'

/-- A list either survives `dropWhile (· == d)` unchanged or loses exactly
one leading `d`, unless it starts with two `d`s. -/
theorem dropWhile_shape (r : List Char) (d : Char)
    (H2 : ¬ ∃ r2, r = d :: d :: r2) :
    r = r.dropWhile (· == d) ∨ r = d :: r.dropWhile (· == d) := by
  match r with
  | [] => exact Or.inl rfl
  | a :: r' =>
    by_cases had : a = d
    · match r' with
      | [] =>
        right
        rw [had]
        simp [List.dropWhile_cons]
      | b :: r'' =>
        by_cases hbd : b = d
        · exact absurd ⟨r'', by rw [had, hbd]⟩ H2
        · right
          rw [had]
          simp [List.dropWhile_cons, hbd]
    · left
      simp [List.dropWhile_cons, had]

/-- When a string does not end in a doubled delimiter, it equals its
end-trimmed form, possibly followed by one delimiter. -/
theorem eTrim_shape (s : String) (d : Char)
    (H : jsEndsWith s ⟨[d, d]⟩ = false) :
    s.data = (eTrim s d).data ∨ s.data = (eTrim s d).data ++ [d] := by
  by_cases hs : s = ""
  · left
    rw [hs]
    rfl
  · have hE : (eTrim s d).data = (s.data.reverse.dropWhile (· == d)).reverse := by
      simp [eTrim, iTrim, hs, trimEndChar]
    have H2 : ¬ ∃ r2, s.data.reverse = d :: d :: r2 := by
      rintro ⟨r2, hr2⟩
      have hsuf : [d, d] <:+ s.data := by
        refine ⟨r2.reverse, ?_⟩
        have := congrArg List.reverse hr2
        simpa using this.symm
      have : jsEndsWith s ⟨[d, d]⟩ = true := by
        simpa [jsEndsWith] using List.isSuffixOf_iff_suffix.mpr hsuf
      rw [this] at H
      simp at H
    rcases dropWhile_shape s.data.reverse d H2 with h | h
    · left
      rw [hE]
      calc s.data = s.data.reverse.reverse := by simp
        _ = (s.data.reverse.dropWhile (· == d)).reverse := by rw [← h]
    · right
      rw [hE]
      calc s.data = s.data.reverse.reverse := by simp
        _ = (d :: s.data.reverse.dropWhile (· == d)).reverse := by rw [← h]
        _ = (s.data.reverse.dropWhile (· == d)).reverse ++ [d] := by simp

/-- `uri` returns its argument unchanged whenever the first guard fires. -/
theorem uri_of_cond1 (base w : String)
    (h : (w == "" || base == "/" || !(jsStartsWith w "/")) = true) :
    uri base w = w := by
  unfold uri
  rw [if_pos h]

/-- `uri` returns its argument unchanged whenever it already starts with
the base URL. -/
theorem uri_of_startsWith (base w : String) (h : jsStartsWith w base = true) :
    uri base w = w := by
  unfold uri
  by_cases h1 : (w == "" || base == "/" || !(jsStartsWith w "/")) = true
  · rw [if_pos h1]
  · rw [if_neg h1, if_pos h]

/-- C10 counterexample: with base URL `"/a//"` (trailing doubled slash)
and input `"/x"`, `uri` is not idempotent: `uri "/x" = "/a/x"` but
`uri "/a/x" = "/a/a/x"`. -/
theorem uri_idempotent_counterexample :
    uri "/a//" (uri "/a//" "/x") ≠ uri "/a//" "/x" := by
  decide

/-- C10 (amended): the `uri` path-prefixing helper is idempotent for every
input string provided the base URL does not end in a doubled slash `"//"`
(every realistic Nuxt `baseURL`, e.g. `"/"` or `"/app/"`, satisfies
this): a result already carrying the base prefix (or not starting with
`'/'`) is returned unchanged. -/
theorem uri_idempotent (base : String) (H : jsEndsWith base "//" = false) (u : String) :
    uri base (uri base u) = uri base u := by
  by_cases h1 : (u == "" || base == "/" || !(jsStartsWith u "/")) = true
  · rw [uri_of_cond1 base u h1]
    exact uri_of_cond1 base u h1
  · by_cases h2 : jsStartsWith u base = true
    · rw [uri_of_startsWith base u h2]
      exact uri_of_startsWith base u h2
    · have hv : uri base u = eTrim base '/' ++ "/" ++ sTrim u '/' := by
        unfold uri
        rw [if_neg h1, if_neg h2]
      rw [hv]
      apply uri_of_startsWith
      have hdata : (eTrim base '/' ++ "/" ++ sTrim u '/').data =
          (eTrim base '/').data ++ '/' :: (sTrim u '/').data := by
        simp
      have hH : jsEndsWith base ⟨['/', '/']⟩ = false := H
      rcases eTrim_shape base '/' hH with hb | hb
      · rw [jsStartsWith, hdata, ← hb]
        exact List.isPrefixOf_iff_prefix.mpr (List.prefix_append _ _)
      · have hsplit : (eTrim base '/').data ++ '/' :: (sTrim u '/').data =
            ((eTrim base '/').data ++ ['/']) ++ (sTrim u '/').data := by
          simp
        rw [jsStartsWith, hdata, hsplit, ← hb]
        exact List.isPrefixOf_iff_prefix.mpr (List.prefix_append _ _)

/-- Witness for C10 (amended): with the realistic base URL `"/app/"` the
hypothesis holds and `uri` is idempotent on `"/x"`. -/
theorem uri_idempotent_witness :
    jsEndsWith "/app/" "//" = false ∧
    uri "/app/" (uri "/app/" "/x") = uri "/app/" "/x" :=
  ⟨by decide, uri_idempotent "/app/" (by decide) "/x"⟩

/-! ## `encode` / `decode`

The utility module's `encode` composes `JSON.stringify`, UTF-8 encoding
(`TextEncoder`), `btoa`, the URL-safe character replacements and padding
strip; `decode` composes the inverse replacements, re-padding, `atob`,
`TextDecoder` and `JSON.parse`.  The platform builtins are modelled by
their standard semantics; JSON numbers are modelled as integers (IEEE-754
double formatting is outside a shallow embedding). -/

/-- The decimal digit character for `n < 10`. -/
def digitChar (n : Nat) : Char := Char.ofNat (48 + n)

/-- Decimal printing of a natural number, most significant digit first
(the JS `String(n)` / `JSON.stringify(n)` form). -/
def natToChars (n : Nat) : List Char :=
  if n < 10 then [digitChar n]
  else natToChars (n / 10) ++ [digitChar (n % 10)]
termination_by n
decreasing_by exact Nat.div_lt_self (by omega) (by omega)

/-- JS integer printing: minus sign followed by the decimal digits. -/
def intToChars (i : Int) : List Char :=
  if i < 0 then '-' :: natToChars i.natAbs else natToChars i.toNat

/-- Greedy decimal-digit consumption of `JSON.parse`, folding the value
left to right. -/
def parseDigits (acc : Nat) : List Char → Nat × List Char
  | [] => (acc, [])
  | c :: cs =>
    if c.isDigit then parseDigits (acc * 10 + (c.toNat - 48)) cs else (acc, c :: cs)

/-- A JSON number token: at least one digit, consumed greedily. -/
def parseNum (l : List Char) : Option (Nat × List Char) :=
  match l with
  | [] => none
  | c :: cs => if c.isDigit then some (parseDigits (c.toNat - 48) cs) else none

/-- `true` when the list does not start with a decimal digit (so a number
token before it would stop exactly there). -/
def noDigitHead : List Char → Bool
  | [] => true
  | c :: _ => !c.isDigit

theorem digitChar_isDigit (n : Nat) (h : n < 10) : (digitChar n).isDigit = true := by
  interval_cases n <;> decide

theorem digitChar_toNat (n : Nat) (h : n < 10) : (digitChar n).toNat = 48 + n := by
  interval_cases n <;> decide

theorem natToChars_ne_nil (n : Nat) : natToChars n ≠ [] := by
  rw [natToChars]
  split
  · simp
  · simp

theorem natToChars_digits (n : Nat) : ∀ c ∈ natToChars n, c.isDigit = true := by
  induction n using Nat.strong_induction_on with
  | _ n ih =>
    rw [natToChars]
    split
    · intro c hc
      rw [List.mem_singleton] at hc
      subst hc
      exact digitChar_isDigit n (by omega)
    · intro c hc
      rcases List.mem_append.mp hc with hc | hc
      · exact ih (n / 10) (Nat.div_lt_self (by omega) (by omega)) c hc
      · rw [List.mem_singleton] at hc
        subst hc
        exact digitChar_isDigit _ (by omega)

theorem parseDigits_stop (acc : Nat) (l : List Char) (h : noDigitHead l = true) :
    parseDigits acc l = (acc, l) := by
  cases l with
  | nil => rfl
  | cons c cs =>
    simp only [noDigitHead, Bool.not_eq_true'] at h
    simp [parseDigits, h]

theorem parseDigits_append (n : Nat) : ∀ acc rest,
    parseDigits acc (natToChars n ++ rest) =
      parseDigits (acc * 10 ^ (natToChars n).length + n) rest := by
  induction n using Nat.strong_induction_on with
  | _ n ih =>
    intro acc rest
    rw [natToChars]
    split
    · rename_i h
      have harg : acc * 10 + ((digitChar n).toNat - 48) = acc * 10 ^ [digitChar n].length + n := by
        rw [digitChar_toNat n h]
        simp only [List.length_singleton, pow_one]
        omega
      have step : parseDigits acc ([digitChar n] ++ rest) =
          parseDigits (acc * 10 + ((digitChar n).toNat - 48)) rest := by
        simp [parseDigits, digitChar_isDigit n h]
      rw [step, harg]
    · rename_i h
      rw [List.append_assoc,
        ih (n / 10) (Nat.div_lt_self (by omega) (by omega)) acc ([digitChar (n % 10)] ++ rest)]
      have hd : (digitChar (n % 10)).isDigit = true := digitChar_isDigit _ (by omega)
      have harg : (acc * 10 ^ (natToChars (n / 10)).length + n / 10) * 10 +
            ((digitChar (n % 10)).toNat - 48) =
          acc * 10 ^ (natToChars (n / 10) ++ [digitChar (n % 10)]).length + n := by
        rw [digitChar_toNat _ (by omega)]
        have hlen : (natToChars (n / 10) ++ [digitChar (n % 10)]).length =
            (natToChars (n / 10)).length + 1 := by simp
        rw [hlen, pow_succ]
        have hmul : acc * (10 ^ (natToChars (n / 10)).length * 10) =
            acc * 10 ^ (natToChars (n / 10)).length * 10 := by ring
        rw [hmul]
        omega
      have step : parseDigits (acc * 10 ^ (natToChars (n / 10)).length + n / 10)
            ([digitChar (n % 10)] ++ rest) =
          parseDigits ((acc * 10 ^ (natToChars (n / 10)).length + n / 10) * 10 +
            ((digitChar (n % 10)).toNat - 48)) rest := by
        simp [parseDigits, hd]
      rw [step, harg]

theorem parseNum_natToChars (n : Nat) (rest : List Char) (h : noDigitHead rest = true) :
    parseNum (natToChars n ++ rest) = some (n, rest) := by
  have key : parseNum (natToChars n ++ rest) = some (parseDigits 0 (natToChars n ++ rest)) := by
    rcases hnc : natToChars n with _ | ⟨c, cs⟩
    · exact absurd hnc (natToChars_ne_nil n)
    · have hc : c.isDigit = true :=
        natToChars_digits n c (by rw [hnc]; exact List.mem_cons_self c cs)
      simp [parseNum, parseDigits, hc, List.cons_append]
  rw [key, parseDigits_append, parseDigits_stop _ _ h]
  simp

/-- Lowercase hexadecimal digit character (as emitted by
`JSON.stringify`'s `\u00XX` escapes). -/
def hexDigitChar (n : Nat) : Char :=
  if n < 10 then Char.ofNat (48 + n) else Char.ofNat (87 + n)

/-- Hexadecimal value of a character (`JSON.parse` accepts both cases). -/
def hexVal (c : Char) : Option Nat :=
  if 48 ≤ c.toNat ∧ c.toNat ≤ 57 then some (c.toNat - 48)
  else if 97 ≤ c.toNat ∧ c.toNat ≤ 102 then some (c.toNat - 87)
  else if 65 ≤ c.toNat ∧ c.toNat ≤ 70 then some (c.toNat - 55)
  else none

/-- `JSON.stringify` escaping of one string character: `"` and `\` get a
backslash, the five short control escapes are used when available, the
remaining control characters become `\u00XX`, and everything else is
emitted verbatim. -/
def escapeChar (c : Char) : List Char :=
  if c = '"' then ['\\', '"']
  else if c = '\\' then ['\\', '\\']
  else if c.toNat = 8 then ['\\', 'b']
  else if c.toNat = 9 then ['\\', 't']
  else if c.toNat = 10 then ['\\', 'n']
  else if c.toNat = 12 then ['\\', 'f']
  else if c.toNat = 13 then ['\\', 'r']
  else if c.toNat < 32 then
    ['\\', 'u', '0', '0', hexDigitChar (c.toNat / 16), hexDigitChar (c.toNat % 16)]
  else [c]

/-- `JSON.stringify` escaping of a whole string body. -/
def escapeStr (l : List Char) : List Char :=
  (l.map escapeChar).flatten

/-- Prepend a character to the parsed-so-far string component. -/
def consFst (c : Char) (p : List Char × List Char) : List Char × List Char :=
  (c :: p.1, p.2)

/-- `JSON.parse` string-body scanning (the opening quote has already been
consumed): read until the closing quote, decoding backslash escapes. -/
def parseStr : List Char → Option (List Char × List Char)
  | [] => none
  | c :: cs =>
    if c = '"' then some ([], cs)
    else if c = '\\' then
      match cs with
      | [] => none
      | e :: cs2 =>
        if e = '"' then (parseStr cs2).map (consFst '"')
        else if e = '\\' then (parseStr cs2).map (consFst '\\')
        else if e = 'b' then (parseStr cs2).map (consFst (Char.ofNat 8))
        else if e = 't' then (parseStr cs2).map (consFst (Char.ofNat 9))
        else if e = 'n' then (parseStr cs2).map (consFst (Char.ofNat 10))
        else if e = 'f' then (parseStr cs2).map (consFst (Char.ofNat 12))
        else if e = 'r' then (parseStr cs2).map (consFst (Char.ofNat 13))
        else if e = 'u' then
          match cs2 with
          | h1 :: h2 :: h3 :: h4 :: cs3 =>
            match hexVal h1, hexVal h2, hexVal h3, hexVal h4 with
            | some a, some b, some x, some y =>
              (parseStr cs3).map (consFst (Char.ofNat (((a * 16 + b) * 16 + x) * 16 + y)))
            | _, _, _, _ => none
          | _ => none
        else none
    else (parseStr cs).map (consFst c)

theorem hexVal_hexDigitChar (m : Nat) (h : m < 16) :
    hexVal (hexDigitChar m) = some m := by
  interval_cases m <;> decide

theorem parseStr_quote (cs : List Char) : parseStr ('"' :: cs) = some ([], cs) := by
  rw [parseStr.eq_def]
  dsimp only
  rw [if_pos rfl]

theorem parseStr_esc (e : Char) (cs2 : List Char) :
    parseStr ('\\' :: e :: cs2) =
      (if e = '"' then (parseStr cs2).map (consFst '"')
      else if e = '\\' then (parseStr cs2).map (consFst '\\')
      else if e = 'b' then (parseStr cs2).map (consFst (Char.ofNat 8))
      else if e = 't' then (parseStr cs2).map (consFst (Char.ofNat 9))
      else if e = 'n' then (parseStr cs2).map (consFst (Char.ofNat 10))
      else if e = 'f' then (parseStr cs2).map (consFst (Char.ofNat 12))
      else if e = 'r' then (parseStr cs2).map (consFst (Char.ofNat 13))
      else if e = 'u' then
        (match cs2 with
        | h1 :: h2 :: h3 :: h4 :: cs3 =>
          match hexVal h1, hexVal h2, hexVal h3, hexVal h4 with
          | some a, some b, some x, some y =>
            (parseStr cs3).map (consFst (Char.ofNat (((a * 16 + b) * 16 + x) * 16 + y)))
          | _, _, _, _ => none
        | _ => none)
      else none) := by
  rw [parseStr.eq_def]
  dsimp only
  rw [if_neg (show ¬('\\' : Char) = '"' by decide), if_pos rfl]

theorem parseStr_other (c : Char) (cs : List Char) (h1 : ¬ c = '"') (h2 : ¬ c = '\\') :
    parseStr (c :: cs) = (parseStr cs).map (consFst c) := by
  rw [parseStr.eq_def]
  dsimp only
  rw [if_neg h1, if_neg h2]

theorem parseStr_unicode (a b x y : Char) (va vb vx vy : Nat) (l : List Char)
    (ha : hexVal a = some va) (hb : hexVal b = some vb)
    (hx : hexVal x = some vx) (hy : hexVal y = some vy) :
    parseStr ('\\' :: 'u' :: a :: b :: x :: y :: l) =
      (parseStr l).map (consFst (Char.ofNat (((va * 16 + vb) * 16 + vx) * 16 + vy))) := by
  rw [parseStr_esc]
  simp [ha, hb, hx, hy]

theorem parseStr_escapeChar (c : Char) (l : List Char) :
    parseStr (escapeChar c ++ l) = (parseStr l).map (consFst c) := by
  by_cases h1 : c = '"'
  · subst h1
    simp [escapeChar, parseStr_esc]
  by_cases h2 : c = '\\'
  · subst h2
    simp [escapeChar, parseStr_esc]
  by_cases h3 : c.toNat = 8
  · have hc : c = Char.ofNat 8 := by rw [← h3, Char.ofNat_toNat]
    subst hc
    simp [escapeChar, parseStr_esc]
  by_cases h4 : c.toNat = 9
  · have hc : c = Char.ofNat 9 := by rw [← h4, Char.ofNat_toNat]
    subst hc
    simp [escapeChar, parseStr_esc]
  by_cases h5 : c.toNat = 10
  · have hc : c = Char.ofNat 10 := by rw [← h5, Char.ofNat_toNat]
    subst hc
    simp [escapeChar, parseStr_esc]
  by_cases h6 : c.toNat = 12
  · have hc : c = Char.ofNat 12 := by rw [← h6, Char.ofNat_toNat]
    subst hc
    simp [escapeChar, parseStr_esc]
  by_cases h7 : c.toNat = 13
  · have hc : c = Char.ofNat 13 := by rw [← h7, Char.ofNat_toNat]
    subst hc
    simp [escapeChar, parseStr_esc]
  by_cases hlt : c.toNat < 32
  · have hesc : escapeChar c =
        ['\\', 'u', '0', '0', hexDigitChar (c.toNat / 16), hexDigitChar (c.toNat % 16)] := by
      unfold escapeChar
      rw [if_neg h1, if_neg h2, if_neg h3, if_neg h4, if_neg h5, if_neg h6, if_neg h7,
        if_pos hlt]
    rw [hesc]
    have hstep := parseStr_unicode '0' '0'
      (hexDigitChar (c.toNat / 16)) (hexDigitChar (c.toNat % 16))
      0 0 (c.toNat / 16) (c.toNat % 16) l
      (by decide) (by decide)
      (hexVal_hexDigitChar _ (by omega)) (hexVal_hexDigitChar _ (by omega))
    have hlist : (['\\', 'u', '0', '0', hexDigitChar (c.toNat / 16),
        hexDigitChar (c.toNat % 16)] : List Char) ++ l =
        '\\' :: 'u' :: '0' :: '0' :: hexDigitChar (c.toNat / 16) ::
          hexDigitChar (c.toNat % 16) :: l := rfl
    rw [hlist, hstep]
    have hval : (((0 * 16 + 0) * 16 + c.toNat / 16) * 16 + c.toNat % 16) = c.toNat := by
      omega
    rw [hval, Char.ofNat_toNat]
  · have hesc : escapeChar c = [c] := by
      unfold escapeChar
      rw [if_neg h1, if_neg h2, if_neg h3, if_neg h4, if_neg h5, if_neg h6, if_neg h7,
        if_neg hlt]
    rw [hesc, List.singleton_append]
    exact parseStr_other c l h1 h2

theorem parseStr_escapeStr (s : List Char) (l : List Char) :
    parseStr (escapeStr s ++ '"' :: l) = some (s, l) := by
  induction s with
  | nil =>
    show parseStr (([] : List (List Char)).flatten ++ '"' :: l) = some ([], l)
    rw [List.flatten_nil, List.nil_append, parseStr_quote]
  | cons c cs ih =>
    have hcons : escapeStr (c :: cs) = escapeChar c ++ escapeStr cs := by
      simp [escapeStr]
    rw [hcons, List.append_assoc, parseStr_escapeChar, ih]
    simp [consFst]

mutual
/-- A JSON-serializable JavaScript value (`JSON.stringify`'s domain):
`null`, booleans, numbers (modelled as integers), strings, arrays and
objects (key order preserved, as in JS). -/
inductive Json where
  | null : Json
  | bool : Bool → Json
  | num : Int → Json
  | str : String → Json
  | arr : JsonArr → Json
  | obj : JsonObj → Json

/-- The element list of a JSON array. -/
inductive JsonArr where
  | nil : JsonArr
  | cons : Json → JsonArr → JsonArr

/-- The key/value list of a JSON object. -/
inductive JsonObj where
  | nil : JsonObj
  | cons : String → Json → JsonObj → JsonObj
end

mutual
/-- `JSON.stringify` (no spacing argument): the exact character stream
produced for a value. -/
def printJson : Json → List Char
  | .null => 'n' :: ['u', 'l', 'l']
  | .bool true => 't' :: ['r', 'u', 'e']
  | .bool false => 'f' :: ['a', 'l', 's', 'e']
  | .num i => intToChars i
  | .str s => '"' :: (escapeStr s.data ++ ['"'])
  | .arr .nil => ['[', ']']
  | .arr (.cons v tl) => '[' :: (printArrItems (JsonArr.cons v tl) ++ [']'])
  | .obj .nil => ['{', '}']
  | .obj (.cons k v tl) => '{' :: (printObjItems (JsonObj.cons k v tl) ++ ['}'])

/-- Comma-separated element stream of a non-empty array body. -/
def printArrItems : JsonArr → List Char
  | .nil => []
  | .cons v .nil => printJson v
  | .cons v (.cons w tl) => printJson v ++ ',' :: printArrItems (JsonArr.cons w tl)

/-- Comma-separated `"key":value` stream of a non-empty object body. -/
def printObjItems : JsonObj → List Char
  | .nil => []
  | .cons k v .nil => '"' :: (escapeStr k.data ++ '"' :: ':' :: printJson v)
  | .cons k v (.cons k2 v2 tl) =>
      ('"' :: (escapeStr k.data ++ '"' :: ':' :: printJson v)) ++
        ',' :: printObjItems (JsonObj.cons k2 v2 tl)
end

mutual
/-- Fuel bound for the parser: enough recursion depth to re-read the
printed value. -/
def Json.fsize : Json → Nat
  | .arr a => 1 + JsonArr.fsize a
  | .obj o => 1 + JsonObj.fsize o
  | _ => 1

def JsonArr.fsize : JsonArr → Nat
  | .nil => 0
  | .cons v tl => 1 + Json.fsize v + JsonArr.fsize tl

def JsonObj.fsize : JsonObj → Nat
  | .nil => 0
  | .cons _ v tl => 1 + Json.fsize v + JsonObj.fsize tl
end

/-- Consume an expected literal keyword tail (`ull`, `rue`, `alse`). -/
def expectChars (kw : List Char) (l : List Char) : Option (List Char) :=
  match kw, l with
  | [], rest => some rest
  | k :: kw2, c :: cs => if c = k then expectChars kw2 cs else none
  | _ :: _, [] => none

mutual
/-- `JSON.parse` value dispatch (platform model, on the whitespace-free
grammar fragment `JSON.stringify` emits): keyword literals, strings,
arrays, objects and integer numbers.  The `Nat` argument is recursion
fuel. -/
def parseVal : Nat → List Char → Option (Json × List Char)
  | 0, _ => none
  | Nat.succ fuel, l =>
    match l with
    | [] => none
    | c :: cs =>
      if c = 'n' then (expectChars ['u', 'l', 'l'] cs).map (fun r => (Json.null, r))
      else if c = 't' then (expectChars ['r', 'u', 'e'] cs).map (fun r => (Json.bool true, r))
      else if c = 'f' then (expectChars ['a', 'l', 's', 'e'] cs).map (fun r => (Json.bool false, r))
      else if c = '"' then (parseStr cs).map (fun p => (Json.str ⟨p.1⟩, p.2))
      else if c = '[' then
        match cs with
        | [] => none
        | d :: r =>
          if d = ']' then some (Json.arr JsonArr.nil, r)
          else (parseArrItems fuel (d :: r)).map (fun p => (Json.arr p.1, p.2))
      else if c = '{' then
        match cs with
        | [] => none
        | d :: r =>
          if d = '}' then some (Json.obj JsonObj.nil, r)
          else (parseObjItems fuel (d :: r)).map (fun p => (Json.obj p.1, p.2))
      else if c = '-' then
        (parseNum cs).map (fun p => (Json.num (-(p.1 : Int)), p.2))
      else if c.isDigit then
        (parseNum (c :: cs)).map (fun p => (Json.num (p.1 : Int), p.2))
      else none

/-- Non-empty array body: value, then `,` and more values or the closing
`]`. -/
def parseArrItems : Nat → List Char → Option (JsonArr × List Char)
  | 0, _ => none
  | Nat.succ fuel, l =>
    match parseVal fuel l with
    | none => none
    | some (v, r) =>
      match r with
      | [] => none
      | d :: r2 =>
        if d = ',' then
          match parseArrItems fuel r2 with
          | none => none
          | some (tl, r3) => some (JsonArr.cons v tl, r3)
        else if d = ']' then some (JsonArr.cons v JsonArr.nil, r2)
        else none

/-- Non-empty object body: `"key":value`, then `,` and more members or the
closing `}`. -/
def parseObjItems : Nat → List Char → Option (JsonObj × List Char)
  | 0, _ => none
  | Nat.succ fuel, l =>
    match l with
    | [] => none
    | c :: cs =>
      if c = '"' then
        match parseStr cs with
        | none => none
        | some (k, r) =>
          match r with
          | [] => none
          | d :: r2 =>
            if d = ':' then
              match parseVal fuel r2 with
              | none => none
              | some (v, r3) =>
                match r3 with
                | [] => none
                | e :: r4 =>
                  if e = ',' then
                    match parseObjItems fuel r4 with
                    | none => none
                    | some (tl, r5) => some (JsonObj.cons ⟨k⟩ v tl, r5)
                  else if e = '}' then some (JsonObj.cons ⟨k⟩ v JsonObj.nil, r4)
                  else none
            else none
      else none
end

theorem expectChars_append (kw rest : List Char) :
    expectChars kw (kw ++ rest) = some rest := by
  induction kw with
  | nil => rfl
  | cons k kw2 ih => simp [expectChars, ih]

theorem isDigit_ne (c x : Char) (h : c.isDigit = true) (hx : x.isDigit = false) : ¬ c = x := by
  intro he
  rw [he] at h
  rw [h] at hx
  cases hx

theorem parseVal_n (f : Nat) (cs : List Char) :
    parseVal (f + 1) ('n' :: cs) = (expectChars ['u', 'l', 'l'] cs).map (fun r => (Json.null, r)) := by
  rw [parseVal.eq_def]
  dsimp only
  rw [if_pos rfl]

theorem parseVal_t (f : Nat) (cs : List Char) :
    parseVal (f + 1) ('t' :: cs) =
      (expectChars ['r', 'u', 'e'] cs).map (fun r => (Json.bool true, r)) := by
  rw [parseVal.eq_def]
  dsimp only
  rw [if_neg (by decide), if_pos rfl]

theorem parseVal_f (f : Nat) (cs : List Char) :
    parseVal (f + 1) ('f' :: cs) =
      (expectChars ['a', 'l', 's', 'e'] cs).map (fun r => (Json.bool false, r)) := by
  rw [parseVal.eq_def]
  dsimp only
  rw [if_neg (by decide), if_neg (by decide), if_pos rfl]

theorem parseVal_quote (f : Nat) (cs : List Char) :
    parseVal (f + 1) ('"' :: cs) = (parseStr cs).map (fun p => (Json.str ⟨p.1⟩, p.2)) := by
  rw [parseVal.eq_def]
  dsimp only
  rw [if_neg (by decide), if_neg (by decide), if_neg (by decide), if_pos rfl]

theorem parseVal_lbracket (f : Nat) (cs : List Char) :
    parseVal (f + 1) ('[' :: cs) =
      (match cs with
      | [] => none
      | d :: r =>
        if d = ']' then some (Json.arr JsonArr.nil, r)
        else (parseArrItems f (d :: r)).map (fun p => (Json.arr p.1, p.2))) := by
  rw [parseVal.eq_def]
  dsimp only
  rw [if_neg (by decide), if_neg (by decide), if_neg (by decide), if_neg (by decide),
    if_pos rfl]

theorem parseVal_lbrace (f : Nat) (cs : List Char) :
    parseVal (f + 1) ('{' :: cs) =
      (match cs with
      | [] => none
      | d :: r =>
        if d = '}' then some (Json.obj JsonObj.nil, r)
        else (parseObjItems f (d :: r)).map (fun p => (Json.obj p.1, p.2))) := by
  rw [parseVal.eq_def]
  dsimp only
  rw [if_neg (by decide), if_neg (by decide), if_neg (by decide), if_neg (by decide),
    if_neg (by decide), if_pos rfl]

theorem parseVal_minus (f : Nat) (cs : List Char) :
    parseVal (f + 1) ('-' :: cs) =
      (parseNum cs).map (fun p => (Json.num (-(p.1 : Int)), p.2)) := by
  rw [parseVal.eq_def]
  dsimp only
  rw [if_neg (by decide), if_neg (by decide), if_neg (by decide), if_neg (by decide),
    if_neg (by decide), if_neg (by decide), if_pos rfl]

theorem parseVal_digit (f : Nat) (c : Char) (cs : List Char) (h : c.isDigit = true) :
    parseVal (f + 1) (c :: cs) =
      (parseNum (c :: cs)).map (fun p => (Json.num (p.1 : Int), p.2)) := by
  rw [parseVal.eq_def]
  dsimp only
  rw [if_neg (isDigit_ne c 'n' h (by decide)), if_neg (isDigit_ne c 't' h (by decide)),
    if_neg (isDigit_ne c 'f' h (by decide)), if_neg (isDigit_ne c '"' h (by decide)),
    if_neg (isDigit_ne c '[' h (by decide)), if_neg (isDigit_ne c '{' h (by decide)),
    if_neg (isDigit_ne c '-' h (by decide)), if_pos h]

theorem parseArrItems_succ (f : Nat) (l : List Char) :
    parseArrItems (f + 1) l =
      (match parseVal f l with
      | none => none
      | some (v, r) =>
        match r with
        | [] => none
        | d :: r2 =>
          if d = ',' then
            match parseArrItems f r2 with
            | none => none
            | some (tl, r3) => some (JsonArr.cons v tl, r3)
          else if d = ']' then some (JsonArr.cons v JsonArr.nil, r2)
          else none) := by
  rw [parseArrItems.eq_def]

theorem parseObjItems_succ (f : Nat) (l : List Char) :
    parseObjItems (f + 1) l =
      (match l with
      | [] => none
      | c :: cs =>
        if c = '"' then
          match parseStr cs with
          | none => none
          | some (k, r) =>
            match r with
            | [] => none
            | d :: r2 =>
              if d = ':' then
                match parseVal f r2 with
                | none => none
                | some (v, r3) =>
                  match r3 with
                  | [] => none
                  | e :: r4 =>
                    if e = ',' then
                      match parseObjItems f r4 with
                      | none => none
                      | some (tl, r5) => some (JsonObj.cons ⟨k⟩ v tl, r5)
                    else if e = '}' then some (JsonObj.cons ⟨k⟩ v JsonObj.nil, r4)
                    else none
              else none
        else none) := by
  rw [parseObjItems.eq_def]

theorem Json.fsize_pos (j : Json) : 1 ≤ Json.fsize j := by
  cases j <;> simp [Json.fsize]

theorem printArrItems_cons_shape (v : Json) (tl : JsonArr) :
    ∃ t, printArrItems (JsonArr.cons v tl) = printJson v ++ t := by
  cases tl with
  | nil => exact ⟨[], by simp [printArrItems]⟩
  | cons w tl2 => exact ⟨',' :: printArrItems (JsonArr.cons w tl2), by simp [printArrItems]⟩

theorem printObjItems_cons_shape (k : String) (v : Json) (tl : JsonObj) :
    ∃ t, printObjItems (JsonObj.cons k v tl) = '"' :: t := by
  cases tl with
  | nil => exact ⟨escapeStr k.data ++ '"' :: ':' :: printJson v, by simp [printObjItems]⟩
  | cons k2 v2 tl2 =>
    exact ⟨escapeStr k.data ++ '"' :: ':' :: printJson v ++
      ',' :: printObjItems (JsonObj.cons k2 v2 tl2), by simp [printObjItems]⟩

theorem printJson_head (j : Json) :
    ∃ c cs, printJson j = c :: cs ∧ ¬ c = ']' := by
  cases j with
  | null => exact ⟨'n', ['u', 'l', 'l'], by simp [printJson], by decide⟩
  | bool b =>
    cases b with
    | true => exact ⟨'t', ['r', 'u', 'e'], by simp [printJson], by decide⟩
    | false => exact ⟨'f', ['a', 'l', 's', 'e'], by simp [printJson], by decide⟩
  | num i =>
    by_cases hneg : i < 0
    · exact ⟨'-', natToChars i.natAbs, by simp [printJson, intToChars, hneg], by decide⟩
    · rcases hnc : natToChars i.toNat with _ | ⟨c, cs⟩
      · exact absurd hnc (natToChars_ne_nil _)
      · refine ⟨c, cs, by simp [printJson, intToChars, hneg, hnc], ?_⟩
        have hd : c.isDigit = true :=
          natToChars_digits _ c (by rw [hnc]; exact List.mem_cons_self _ _)
        exact isDigit_ne c ']' hd (by decide)
  | str s => exact ⟨'"', escapeStr s.data ++ ['"'], by simp [printJson], by decide⟩
  | arr a =>
    cases a with
    | nil => exact ⟨'[', [']'], by simp [printJson], by decide⟩
    | cons v tl =>
      exact ⟨'[', printArrItems (JsonArr.cons v tl) ++ [']'], by simp [printJson], by decide⟩
  | obj o =>
    cases o with
    | nil => exact ⟨'{', ['}'], by simp [printJson], by decide⟩
    | cons k v tl =>
      exact ⟨'{', printObjItems (JsonObj.cons k v tl) ++ ['}'], by simp [printJson], by decide⟩

mutual

theorem parse_print_val (j : Json) :
    ∀ fuel rest, Json.fsize j ≤ fuel → noDigitHead rest = true →
      parseVal fuel (printJson j ++ rest) = some (j, rest) := by
  cases j with
  | null =>
    intro fuel rest hf hr
    cases fuel with
    | zero => simp [Json.fsize] at hf
    | succ f =>
      have hl : printJson Json.null ++ rest = 'n' :: ('u' :: 'l' :: 'l' :: rest) := by
        simp [printJson]
      rw [hl, parseVal_n]
      have he : expectChars ['u', 'l', 'l'] ('u' :: 'l' :: 'l' :: rest) = some rest :=
        expectChars_append ['u', 'l', 'l'] rest
      rw [he]
      rfl
  | bool b =>
    intro fuel rest hf hr
    cases fuel with
    | zero => simp [Json.fsize] at hf
    | succ f =>
      cases b with
      | true =>
        have hl : printJson (Json.bool true) ++ rest = 't' :: ('r' :: 'u' :: 'e' :: rest) := by
          simp [printJson]
        rw [hl, parseVal_t]
        have he : expectChars ['r', 'u', 'e'] ('r' :: 'u' :: 'e' :: rest) = some rest :=
          expectChars_append ['r', 'u', 'e'] rest
        rw [he]
        rfl
      | false =>
        have hl : printJson (Json.bool false) ++ rest =
            'f' :: ('a' :: 'l' :: 's' :: 'e' :: rest) := by
          simp [printJson]
        rw [hl, parseVal_f]
        have he : expectChars ['a', 'l', 's', 'e'] ('a' :: 'l' :: 's' :: 'e' :: rest) = some rest :=
          expectChars_append ['a', 'l', 's', 'e'] rest
        rw [he]
        rfl
  | num i =>
    intro fuel rest hf hr
    cases fuel with
    | zero => simp [Json.fsize] at hf
    | succ f =>
      by_cases hneg : i < 0
      · have hl : printJson (Json.num i) ++ rest = '-' :: (natToChars i.natAbs ++ rest) := by
          simp [printJson, intToChars, hneg]
        rw [hl, parseVal_minus, parseNum_natToChars _ _ hr]
        have hi : (-(i.natAbs : Int)) = i := by omega
        simp only [Option.map_some']
        rw [hi]
      · rcases hnc : natToChars i.toNat with _ | ⟨c0, cs0⟩
        · exact absurd hnc (natToChars_ne_nil _)
        · have hd : c0.isDigit = true :=
            natToChars_digits _ c0 (by rw [hnc]; exact List.mem_cons_self _ _)
          have hl : printJson (Json.num i) ++ rest = c0 :: (cs0 ++ rest) := by
            simp [printJson, intToChars, hneg, hnc]
          rw [hl, parseVal_digit f c0 (cs0 ++ rest) hd]
          have hpn : parseNum (c0 :: (cs0 ++ rest)) = some (i.toNat, rest) := by
            have hx := parseNum_natToChars i.toNat rest hr
            rw [hnc] at hx
            simpa using hx
          rw [hpn]
          have hi : ((i.toNat : Int)) = i := by omega
          simp only [Option.map_some']
          rw [hi]
  | str s =>
    intro fuel rest hf hr
    cases fuel with
    | zero => simp [Json.fsize] at hf
    | succ f =>
      have hl : printJson (Json.str s) ++ rest = '"' :: (escapeStr s.data ++ '"' :: rest) := by
        simp [printJson]
      rw [hl, parseVal_quote, parseStr_escapeStr]
      rfl
  | arr a =>
    intro fuel rest hf hr
    cases fuel with
    | zero =>
      have := Json.fsize_pos (Json.arr a)
      omega
    | succ f =>
      cases a with
      | nil =>
        have hl : printJson (Json.arr JsonArr.nil) ++ rest = '[' :: (']' :: rest) := by
          simp [printJson]
        rw [hl, parseVal_lbracket]
        dsimp only
        rw [if_pos rfl]
      | cons v tl =>
        have hl : printJson (Json.arr (JsonArr.cons v tl)) ++ rest =
            '[' :: (printArrItems (JsonArr.cons v tl) ++ ']' :: rest) := by
          simp [printJson]
        rw [hl, parseVal_lbracket]
        obtain ⟨t, ht⟩ := printArrItems_cons_shape v tl
        obtain ⟨c0, cs0, hpj, hc0⟩ := printJson_head v
        have hform : printArrItems (JsonArr.cons v tl) ++ ']' :: rest =
            c0 :: (cs0 ++ (t ++ ']' :: rest)) := by
          rw [ht, hpj]
          simp
        rw [hform]
        dsimp only
        rw [if_neg hc0]
        have harr : parseArrItems f (printArrItems (JsonArr.cons v tl) ++ ']' :: rest) =
            some (JsonArr.cons v tl, rest) :=
          parse_print_arr v tl f rest (by simp [Json.fsize, JsonArr.fsize, JsonObj.fsize] at hf ⊢; omega)
        rw [hform] at harr
        rw [harr]
        rfl
  | obj o =>
    intro fuel rest hf hr
    cases fuel with
    | zero =>
      have := Json.fsize_pos (Json.obj o)
      omega
    | succ f =>
      cases o with
      | nil =>
        have hl : printJson (Json.obj JsonObj.nil) ++ rest = '{' :: ('}' :: rest) := by
          simp [printJson]
        rw [hl, parseVal_lbrace]
        dsimp only
        rw [if_pos rfl]
      | cons k v tl =>
        have hl : printJson (Json.obj (JsonObj.cons k v tl)) ++ rest =
            '{' :: (printObjItems (JsonObj.cons k v tl) ++ '}' :: rest) := by
          simp [printJson]
        rw [hl, parseVal_lbrace]
        obtain ⟨t, ht⟩ := printObjItems_cons_shape k v tl
        have hform : printObjItems (JsonObj.cons k v tl) ++ '}' :: rest =
            '"' :: (t ++ '}' :: rest) := by
          rw [ht]
          simp
        rw [hform]
        dsimp only
        rw [if_neg (by decide)]
        have hobj : parseObjItems f (printObjItems (JsonObj.cons k v tl) ++ '}' :: rest) =
            some (JsonObj.cons k v tl, rest) :=
          parse_print_obj k v tl f rest (by simp [Json.fsize, JsonArr.fsize, JsonObj.fsize] at hf ⊢; omega)
        rw [hform] at hobj
        rw [hobj]
        rfl
termination_by sizeOf j

theorem parse_print_arr (v : Json) (tl : JsonArr) :
    ∀ fuel rest, JsonArr.fsize (JsonArr.cons v tl) ≤ fuel →
      parseArrItems fuel (printArrItems (JsonArr.cons v tl) ++ ']' :: rest) =
        some (JsonArr.cons v tl, rest) := by
  intro fuel rest hf
  cases fuel with
  | zero => simp [JsonArr.fsize] at hf
  | succ f =>
    rw [parseArrItems_succ]
    cases tl with
    | nil =>
      have h1 : printArrItems (JsonArr.cons v JsonArr.nil) ++ ']' :: rest =
          printJson v ++ ']' :: rest := by
        simp [printArrItems]
      rw [h1, parse_print_val v f (']' :: rest)
        (by simp [JsonArr.fsize, Json.fsize] at hf ⊢; omega) (by simp [noDigitHead])]
      dsimp only
      rw [if_neg (by decide), if_pos rfl]
    | cons w tl2 =>
      have h1 : printArrItems (JsonArr.cons v (JsonArr.cons w tl2)) ++ ']' :: rest =
          printJson v ++ (',' :: (printArrItems (JsonArr.cons w tl2) ++ ']' :: rest)) := by
        simp [printArrItems]
      rw [h1, parse_print_val v f (',' :: (printArrItems (JsonArr.cons w tl2) ++ ']' :: rest))
        (by simp [JsonArr.fsize, Json.fsize] at hf ⊢; omega) (by simp [noDigitHead])]
      dsimp only
      rw [if_pos rfl]
      rw [parse_print_arr w tl2 f rest (by simp [JsonArr.fsize, Json.fsize] at hf ⊢; omega)]
termination_by sizeOf (JsonArr.cons v tl)

theorem parse_print_obj (k : String) (v : Json) (tl : JsonObj) :
    ∀ fuel rest, JsonObj.fsize (JsonObj.cons k v tl) ≤ fuel →
      parseObjItems fuel (printObjItems (JsonObj.cons k v tl) ++ '}' :: rest) =
        some (JsonObj.cons k v tl, rest) := by
  intro fuel rest hf
  cases fuel with
  | zero => simp [JsonObj.fsize] at hf
  | succ f =>
    rw [parseObjItems_succ]
    cases tl with
    | nil =>
      have h1 : printObjItems (JsonObj.cons k v JsonObj.nil) ++ '}' :: rest =
          '"' :: (escapeStr k.data ++ '"' :: (':' :: (printJson v ++ '}' :: rest))) := by
        simp [printObjItems]
      rw [h1]
      dsimp only
      rw [if_pos rfl]
      rw [parseStr_escapeStr k.data (':' :: (printJson v ++ '}' :: rest))]
      dsimp only
      rw [if_pos rfl]
      rw [parse_print_val v f ('}' :: rest)
        (by simp [JsonObj.fsize, Json.fsize] at hf ⊢; omega) (by simp [noDigitHead])]
      dsimp only
      rw [if_neg (by decide), if_pos rfl]
    | cons k2 v2 tl2 =>
      have h1 : printObjItems (JsonObj.cons k v (JsonObj.cons k2 v2 tl2)) ++ '}' :: rest =
          '"' :: (escapeStr k.data ++ '"' :: (':' :: (printJson v ++
            ',' :: (printObjItems (JsonObj.cons k2 v2 tl2) ++ '}' :: rest)))) := by
        simp [printObjItems]
      rw [h1]
      dsimp only
      rw [if_pos rfl]
      rw [parseStr_escapeStr k.data
        (':' :: (printJson v ++ ',' :: (printObjItems (JsonObj.cons k2 v2 tl2) ++ '}' :: rest)))]
      dsimp only
      rw [if_pos rfl]
      rw [parse_print_val v f
        (',' :: (printObjItems (JsonObj.cons k2 v2 tl2) ++ '}' :: rest))
        (by simp [JsonObj.fsize, Json.fsize] at hf ⊢; omega) (by simp [noDigitHead])]
      dsimp only
      rw [if_pos rfl]
      rw [parse_print_obj k2 v2 tl2 f rest (by simp [JsonObj.fsize, Json.fsize] at hf ⊢; omega)]
termination_by sizeOf (JsonObj.cons k v tl)

end

/-- The Unicode scalar value of a character lies below the surrogate range
or between it and `0x110000`. -/
theorem char_toNat_valid (c : Char) :
    c.toNat < 55296 ∨ (57343 < c.toNat ∧ c.toNat < 1114112) := by
  have h := c.valid
  unfold UInt32.isValidChar Nat.isValidChar at h
  rcases h with h | ⟨h1, h2⟩
  · exact Or.inl h
  · exact Or.inr ⟨h1, h2⟩

/-- UTF-8 encoding of one scalar value (the platform `TextEncoder`). -/
def utf8EncodeChar (c : Char) : List Nat :=
  let v := c.toNat
  if v < 128 then [v]
  else if v < 2048 then [192 + v / 64, 128 + v % 64]
  else if v < 65536 then [224 + v / 4096, 128 + (v / 64) % 64, 128 + v % 64]
  else [240 + v / 262144, 128 + (v / 4096) % 64, 128 + (v / 64) % 64, 128 + v % 64]

/-- `TextEncoder().encode` on a whole string. -/
def utf8Encode (l : List Char) : List Nat :=
  (l.map utf8EncodeChar).flatten

mutual
/-- The platform `TextDecoder` (malformed input modelled as `none`):
decodes 1–4 byte sequences, rejecting stray or missing continuation
bytes, overlong forms, surrogates and out-of-range values. -/
def utf8Decode : List Nat → Option (List Char)
  | [] => some []
  | b :: bs =>
    if b < 128 then (utf8Decode bs).map (fun l => Char.ofNat b :: l)
    else if b < 192 then none
    else if b < 224 then utf8Decode2 b bs
    else if b < 240 then utf8Decode3 b bs
    else if b < 248 then utf8Decode4 b bs
    else none

/-- Continuation of a 2-byte UTF-8 sequence. -/
def utf8Decode2 (b : Nat) : List Nat → Option (List Char)
  | b2 :: bs2 =>
    if 128 ≤ b2 ∧ b2 < 192 then
      let v := (b - 192) * 64 + (b2 - 128)
      if 128 ≤ v then (utf8Decode bs2).map (fun l => Char.ofNat v :: l) else none
    else none
  | [] => none

/-- Continuation of a 3-byte UTF-8 sequence. -/
def utf8Decode3 (b : Nat) : List Nat → Option (List Char)
  | b2 :: b3 :: bs2 =>
    if (128 ≤ b2 ∧ b2 < 192) ∧ (128 ≤ b3 ∧ b3 < 192) then
      let v := (b - 224) * 4096 + (b2 - 128) * 64 + (b3 - 128)
      if 2048 ≤ v ∧ (v < 55296 ∨ 57344 ≤ v) then
        (utf8Decode bs2).map (fun l => Char.ofNat v :: l)
      else none
    else none
  | _ => none

/-- Continuation of a 4-byte UTF-8 sequence. -/
def utf8Decode4 (b : Nat) : List Nat → Option (List Char)
  | b2 :: b3 :: b4 :: bs2 =>
    if (128 ≤ b2 ∧ b2 < 192) ∧ (128 ≤ b3 ∧ b3 < 192) ∧ (128 ≤ b4 ∧ b4 < 192) then
      let v := (b - 240) * 262144 + (b2 - 128) * 4096 + (b3 - 128) * 64 + (b4 - 128)
      if 65536 ≤ v ∧ v < 1114112 then
        (utf8Decode bs2).map (fun l => Char.ofNat v :: l)
      else none
    else none
  | _ => none
end

theorem utf8EncodeChar_lt (c : Char) : ∀ b ∈ utf8EncodeChar c, b < 256 := by
  have hv := char_toNat_valid c
  intro b hb
  unfold utf8EncodeChar at hb
  dsimp only at hb
  by_cases h1 : c.toNat < 128
  · rw [if_pos h1] at hb
    simp at hb
    omega
  · rw [if_neg h1] at hb
    by_cases h2 : c.toNat < 2048
    · rw [if_pos h2] at hb
      simp at hb
      rcases hb with hb | hb <;> omega
    · rw [if_neg h2] at hb
      by_cases h3 : c.toNat < 65536
      · rw [if_pos h3] at hb
        simp at hb
        rcases hb with hb | hb | hb <;> omega
      · rw [if_neg h3] at hb
        simp at hb
        rcases hb with hb | hb | hb | hb <;> omega

set_option maxHeartbeats 1600000 in
theorem utf8Decode_encodeChar (c : Char) (bs : List Nat) :
    utf8Decode (utf8EncodeChar c ++ bs) = (utf8Decode bs).map (fun l => c :: l) := by
  have hv := char_toNat_valid c
  by_cases h1 : c.toNat < 128
  · have he : utf8EncodeChar c = [c.toNat] := by
      unfold utf8EncodeChar
      dsimp only
      rw [if_pos h1]
    rw [he, List.singleton_append, utf8Decode.eq_def]
    dsimp only
    rw [if_pos h1, Char.ofNat_toNat]
  · by_cases h2 : c.toNat < 2048
    · have he : utf8EncodeChar c = [192 + c.toNat / 64, 128 + c.toNat % 64] := by
        unfold utf8EncodeChar
        dsimp only
        rw [if_neg h1, if_pos h2]
      rw [he,
        show ([192 + c.toNat / 64, 128 + c.toNat % 64] : List Nat) ++ bs =
          (192 + c.toNat / 64) :: ((128 + c.toNat % 64) :: bs) from rfl,
        utf8Decode.eq_def]
      dsimp only
      rw [if_neg (by omega), if_neg (by omega), if_pos (by omega)]
      rw [utf8Decode2.eq_def]
      dsimp only
      rw [if_pos (by omega), if_pos (by omega)]
      have hveq : (192 + c.toNat / 64 - 192) * 64 + (128 + c.toNat % 64 - 128) = c.toNat := by
        omega
      rw [hveq, Char.ofNat_toNat]
    · by_cases h3 : c.toNat < 65536
      · have he : utf8EncodeChar c =
            [224 + c.toNat / 4096, 128 + (c.toNat / 64) % 64, 128 + c.toNat % 64] := by
          unfold utf8EncodeChar
          dsimp only
          rw [if_neg h1, if_neg h2, if_pos h3]
        rw [he,
          show ([224 + c.toNat / 4096, 128 + (c.toNat / 64) % 64, 128 + c.toNat % 64] :
              List Nat) ++ bs =
            (224 + c.toNat / 4096) :: ((128 + (c.toNat / 64) % 64) ::
              ((128 + c.toNat % 64) :: bs)) from rfl,
          utf8Decode.eq_def]
        dsimp only
        rw [if_neg (by omega), if_neg (by omega), if_neg (by omega), if_pos (by omega)]
        rw [utf8Decode3.eq_def]
        dsimp only
        rw [if_pos (by omega), if_pos (by omega)]
        have hveq : (224 + c.toNat / 4096 - 224) * 4096 +
            (128 + (c.toNat / 64) % 64 - 128) * 64 + (128 + c.toNat % 64 - 128) = c.toNat := by
          omega
        rw [hveq, Char.ofNat_toNat]
      · have he : utf8EncodeChar c =
            [240 + c.toNat / 262144, 128 + (c.toNat / 4096) % 64,
              128 + (c.toNat / 64) % 64, 128 + c.toNat % 64] := by
          unfold utf8EncodeChar
          dsimp only
          rw [if_neg h1, if_neg h2, if_neg h3]
        rw [he,
          show ([240 + c.toNat / 262144, 128 + (c.toNat / 4096) % 64,
              128 + (c.toNat / 64) % 64, 128 + c.toNat % 64] : List Nat) ++ bs =
            (240 + c.toNat / 262144) :: ((128 + (c.toNat / 4096) % 64) ::
              ((128 + (c.toNat / 64) % 64) :: ((128 + c.toNat % 64) :: bs))) from rfl,
          utf8Decode.eq_def]
        dsimp only
        rw [if_neg (by omega), if_neg (by omega), if_neg (by omega), if_neg (by omega),
          if_pos (by omega)]
        rw [utf8Decode4.eq_def]
        dsimp only
        rw [if_pos (by omega), if_pos (by omega)]
        have hveq : (240 + c.toNat / 262144 - 240) * 262144 +
            (128 + (c.toNat / 4096) % 64 - 128) * 4096 +
            (128 + (c.toNat / 64) % 64 - 128) * 64 + (128 + c.toNat % 64 - 128) = c.toNat := by
          omega
        rw [hveq, Char.ofNat_toNat]

theorem utf8Decode_encode (l : List Char) : utf8Decode (utf8Encode l) = some l := by
  induction l with
  | nil => rfl
  | cons c cs ih =>
    have h1 : utf8Encode (c :: cs) = utf8EncodeChar c ++ utf8Encode cs := by
      simp [utf8Encode]
    rw [h1, utf8Decode_encodeChar, ih]
    rfl

theorem utf8Encode_lt (l : List Char) : ∀ b ∈ utf8Encode l, b < 256 := by
  intro b hb
  rw [utf8Encode, List.mem_flatten] at hb
  rcases hb with ⟨sub, hsub, hbsub⟩
  rw [List.mem_map] at hsub
  rcases hsub with ⟨c, -, hc⟩
  exact utf8EncodeChar_lt c b (hc ▸ hbsub)

/-- The base64 alphabet used by `btoa`. -/
def b64Alphabet : List Char :=
  "ABCDEFGHIJKLMNOPQRSTUVWXYZabcdefghijklmnopqrstuvwxyz0123456789+/".data

/-- The alphabet character of a 6-bit group. -/
def b64Char (n : Nat) : Char := b64Alphabet.getD n 'A'

/-- `btoa` on the byte sequence: `String.fromCharCode(...bytes)` builds a
binary string whose code units are exactly the bytes, and `btoa` encodes
those code units three at a time, padding with `=`. -/
def btoa : List Nat → List Char
  | [] => []
  | [b0] => [b64Char (b0 / 4), b64Char (b0 % 4 * 16), '=', '=']
  | [b0, b1] =>
      [b64Char (b0 / 4), b64Char (b0 % 4 * 16 + b1 / 16), b64Char (b1 % 16 * 4), '=']
  | b0 :: b1 :: b2 :: bs =>
      b64Char (b0 / 4) :: b64Char (b0 % 4 * 16 + b1 / 16) ::
        b64Char (b1 % 16 * 4 + b2 / 64) :: b64Char (b2 % 64) :: btoa bs

/-- The 6-bit value of a base64 alphabet character. -/
def b64Val (c : Char) : Option Nat :=
  b64Alphabet.findIdx? (fun x => x == c)

/-- `atob`: decode 4-character groups into 3 bytes, honouring trailing
padding; any character outside the alphabet (or misplaced padding) is an
error, modelled as `none`. -/
def atob : List Char → Option (List Nat)
  | [] => some []
  | c0 :: c1 :: c2 :: c3 :: rest =>
    match b64Val c0, b64Val c1 with
    | some v0, some v1 =>
      if c2 = '=' then
        if c3 = '=' ∧ rest = [] then some [v0 * 4 + v1 / 16] else none
      else
        match b64Val c2 with
        | some v2 =>
          if c3 = '=' then
            if rest = [] then some [v0 * 4 + v1 / 16, v1 % 16 * 16 + v2 / 4] else none
          else
            match b64Val c3 with
            | some v3 =>
              (atob rest).map
                (fun bs => (v0 * 4 + v1 / 16) :: (v1 % 16 * 16 + v2 / 4) ::
                  (v2 % 4 * 64 + v3) :: bs)
            | none => none
        | none => none
    | _, _ => none
  | _ => none

theorem b64Val_b64Char (n : Nat) (h : n < 64) : b64Val (b64Char n) = some n := by
  have hfin : ∀ m : Fin 64, b64Val (b64Char m.val) = some m.val := by decide
  exact hfin ⟨n, h⟩

theorem b64Char_mem (n : Nat) : b64Char n ∈ b64Alphabet := by
  unfold b64Char
  rcases hg : b64Alphabet.get? n with _ | c
  · rw [List.getD_eq_get?, hg]
    decide
  · rw [List.getD_eq_get?, hg]
    exact List.get?_mem hg

theorem b64Char_ne_pad (n : Nat) : ¬ b64Char n = '=' := by
  intro he
  have h := b64Char_mem n
  rw [he] at h
  exact absurd h (by decide)

theorem atob_btoa (bs : List Nat) (h : ∀ b ∈ bs, b < 256) : atob (btoa bs) = some bs := by
  match bs with
  | [] => rfl
  | [b0] =>
    have h0 : b0 < 256 := h b0 (by simp)
    have e1 : btoa [b0] = [b64Char (b0 / 4), b64Char (b0 % 4 * 16), '=', '='] := by
      simp [btoa]
    rw [e1, atob.eq_def]
    dsimp only
    rw [b64Val_b64Char _ (by omega), b64Val_b64Char _ (by omega)]
    dsimp only
    rw [if_pos rfl, if_pos ⟨rfl, rfl⟩]
    have hx : b0 / 4 * 4 + b0 % 4 * 16 / 16 = b0 := by omega
    rw [hx]
  | [b0, b1] =>
    have h0 : b0 < 256 := h b0 (by simp)
    have h1 : b1 < 256 := h b1 (by simp)
    have e1 : btoa [b0, b1] =
        [b64Char (b0 / 4), b64Char (b0 % 4 * 16 + b1 / 16), b64Char (b1 % 16 * 4), '='] := by
      simp [btoa]
    rw [e1, atob.eq_def]
    dsimp only
    rw [b64Val_b64Char _ (by omega), b64Val_b64Char _ (by omega)]
    dsimp only
    rw [if_neg (b64Char_ne_pad _), b64Val_b64Char _ (by omega)]
    dsimp only
    rw [if_pos rfl, if_pos rfl]
    have hx1 : b0 / 4 * 4 + (b0 % 4 * 16 + b1 / 16) / 16 = b0 := by omega
    have hx2 : (b0 % 4 * 16 + b1 / 16) % 16 * 16 + b1 % 16 * 4 / 4 = b1 := by omega
    rw [hx1, hx2]
  | b0 :: b1 :: b2 :: tl =>
    have h0 : b0 < 256 := h b0 (by simp)
    have h1 : b1 < 256 := h b1 (by simp)
    have h2 : b2 < 256 := h b2 (by simp)
    have e1 : btoa (b0 :: b1 :: b2 :: tl) =
        b64Char (b0 / 4) :: b64Char (b0 % 4 * 16 + b1 / 16) ::
          b64Char (b1 % 16 * 4 + b2 / 64) :: b64Char (b2 % 64) :: btoa tl := by
      simp [btoa]
    rw [e1, atob.eq_def]
    dsimp only
    rw [b64Val_b64Char _ (by omega), b64Val_b64Char _ (by omega)]
    dsimp only
    rw [if_neg (b64Char_ne_pad _), b64Val_b64Char _ (by omega)]
    dsimp only
    rw [if_neg (b64Char_ne_pad _), b64Val_b64Char _ (by omega)]
    dsimp only
    rw [atob_btoa tl (fun b hb => h b (by simp [hb]))]
    have hx1 : b0 / 4 * 4 + (b0 % 4 * 16 + b1 / 16) / 16 = b0 := by omega
    have hx2 : (b0 % 4 * 16 + b1 / 16) % 16 * 16 + (b1 % 16 * 4 + b2 / 64) / 4 = b1 := by
      omega
    have hx3 : (b1 % 16 * 4 + b2 / 64) % 4 * 64 + b2 % 64 = b2 := by omega
    rw [hx1, hx2, hx3]
    rfl

/-- `base64.replace(/\+/g, '-')`. -/
def plusToMinus (c : Char) : Char := if c = '+' then '-' else c

/-- `.replace(/\//g, '_')`. -/
def slashToUnderscore (c : Char) : Char := if c = '/' then '_' else c

/-- The two global character replacements of `encode`, in source order. -/
def toUrlSafe (l : List Char) : List Char := (l.map plusToMinus).map slashToUnderscore

/-- The global replacement of `'-'` by `'+'` in `decode`. -/
def minusToPlus (c : Char) : Char := if c = '-' then '+' else c

/-- `.replace(/_/g, '/')`. -/
def underscoreToSlash (c : Char) : Char := if c = '_' then '/' else c

/-- The two global character replacements of `decode`, in source order. -/
def fromUrlSafe (l : List Char) : List Char := (l.map minusToPlus).map underscoreToSlash

/-- `base64.replace(/=+$/, '')`: strip the trailing padding. -/
def stripEq (l : List Char) : List Char := (l.reverse.dropWhile (· == '=')).reverse

/-- `str.padEnd(str.length + (4 - str.length % 4) % 4, '=')`. -/
def padTo4 (l : List Char) : List Char :=
  l ++ List.replicate ((4 - l.length % 4) % 4) '='

theorem urlsafe_char_inv (c : Char) (h : c ∈ b64Alphabet ∨ c = '=') :
    underscoreToSlash (minusToPlus (slashToUnderscore (plusToMinus c))) = c := by
  rcases h with h | h
  · have hall : b64Alphabet.all
        (fun x => underscoreToSlash (minusToPlus (slashToUnderscore (plusToMinus x))) == x) = true := by
      decide
    have h2 := List.all_eq_true.mp hall c h
    simpa using h2
  · subst h
    decide

theorem fromUrlSafe_toUrlSafe (C : List Char) (h : ∀ c ∈ C, c ∈ b64Alphabet) :
    fromUrlSafe (toUrlSafe C) = C := by
  induction C with
  | nil => rfl
  | cons c cs ih =>
    have hc := urlsafe_char_inv c (Or.inl (h c (List.mem_cons_self c cs)))
    have hcs := ih (fun x hx => h x (List.mem_cons_of_mem c hx))
    simp only [fromUrlSafe, toUrlSafe, List.map_cons] at *
    rw [hc, hcs]

theorem stripEq_append (C : List Char) (k : Nat) (h : ∀ c ∈ C, ¬ c = '=') :
    stripEq (C ++ List.replicate k '=') = C := by
  unfold stripEq
  rw [List.reverse_append, List.reverse_replicate]
  have h1 : List.dropWhile (· == '=') (List.replicate k '=' ++ C.reverse) =
      List.dropWhile (· == '=') C.reverse := by
    induction k with
    | zero => simp
    | succ n ih =>
      rw [List.replicate_succ, List.cons_append, List.dropWhile_cons, if_pos (by decide)]
      exact ih
  rw [h1]
  have h2 : List.dropWhile (· == '=') C.reverse = C.reverse := by
    rcases hrC : C.reverse with _ | ⟨hd, tl⟩
    · rfl
    · have hhd : hd ∈ C := by
        have hm : hd ∈ C.reverse := by
          rw [hrC]
          exact List.mem_cons_self _ _
        simpa using hm
      rw [List.dropWhile_cons, if_neg (by simpa using h hd hhd)]
  rw [h2, List.reverse_reverse]

theorem btoa_shape (bs : List Nat) :
    ∃ C k, btoa bs = C ++ List.replicate k '=' ∧ k ≤ 2 ∧
      (∀ c ∈ C, c ∈ b64Alphabet) ∧ (C.length + k) % 4 = 0 := by
  match bs with
  | [] => exact ⟨[], 0, rfl, by omega, by simp, by simp⟩
  | [b0] =>
    refine ⟨[b64Char (b0 / 4), b64Char (b0 % 4 * 16)], 2, by simp [btoa], by omega, ?_, by simp⟩
    intro c hc
    simp at hc
    rcases hc with hc | hc <;> (rw [hc]; exact b64Char_mem _)
  | [b0, b1] =>
    refine ⟨[b64Char (b0 / 4), b64Char (b0 % 4 * 16 + b1 / 16), b64Char (b1 % 16 * 4)], 1,
      by simp [btoa], by omega, ?_, by simp⟩
    intro c hc
    simp at hc
    rcases hc with hc | hc | hc <;> (rw [hc]; exact b64Char_mem _)
  | b0 :: b1 :: b2 :: tl =>
    obtain ⟨C, k, hC, hk, hmem, hlen⟩ := btoa_shape tl
    refine ⟨b64Char (b0 / 4) :: b64Char (b0 % 4 * 16 + b1 / 16) ::
      b64Char (b1 % 16 * 4 + b2 / 64) :: b64Char (b2 % 64) :: C, k, ?_, hk, ?_, ?_⟩
    · simp [btoa, hC]
    · intro c hc
      simp at hc
      rcases hc with hc | hc | hc | hc | hc
      · rw [hc]; exact b64Char_mem _
      · rw [hc]; exact b64Char_mem _
      · rw [hc]; exact b64Char_mem _
      · rw [hc]; exact b64Char_mem _
      · exact hmem c hc
    · simp only [List.length_cons]
      omega

mutual

theorem fsize_le_len_val (j : Json) : Json.fsize j ≤ (printJson j).length := by
  cases j with
  | null => simp [printJson, Json.fsize]
  | bool b => cases b <;> simp [printJson, Json.fsize]
  | num i =>
    have h1 : 1 ≤ (intToChars i).length := by
      unfold intToChars
      split
      · simp
      · exact List.length_pos.mpr (natToChars_ne_nil _)
    simpa [printJson, Json.fsize] using h1
  | str s =>
    simp [printJson, Json.fsize]
  | arr a =>
    cases a with
    | nil => simp [printJson, Json.fsize, JsonArr.fsize]
    | cons v tl =>
      have h1 := fsize_le_len_arr v tl
      simp only [printJson, Json.fsize, List.length_cons, List.length_append,
        List.length_singleton] at *
      omega
  | obj o =>
    cases o with
    | nil => simp [printJson, Json.fsize, JsonObj.fsize]
    | cons k v tl =>
      have h1 := fsize_le_len_obj k v tl
      simp only [printJson, Json.fsize, List.length_cons, List.length_append,
        List.length_singleton] at *
      omega
termination_by sizeOf j

theorem fsize_le_len_arr (v : Json) (tl : JsonArr) :
    JsonArr.fsize (JsonArr.cons v tl) ≤ (printArrItems (JsonArr.cons v tl)).length + 1 := by
  cases tl with
  | nil =>
    have h1 := fsize_le_len_val v
    simp only [printArrItems, JsonArr.fsize] at *
    omega
  | cons w tl2 =>
    have h1 := fsize_le_len_val v
    have h2 := fsize_le_len_arr w tl2
    simp only [printArrItems, JsonArr.fsize, List.length_append, List.length_cons] at *
    omega
termination_by sizeOf (JsonArr.cons v tl)

theorem fsize_le_len_obj (k : String) (v : Json) (tl : JsonObj) :
    JsonObj.fsize (JsonObj.cons k v tl) ≤ (printObjItems (JsonObj.cons k v tl)).length + 1 := by
  cases tl with
  | nil =>
    have h1 := fsize_le_len_val v
    simp only [printObjItems, JsonObj.fsize, List.length_cons, List.length_append] at *
    omega
  | cons k2 v2 tl2 =>
    have h1 := fsize_le_len_val v
    have h2 := fsize_le_len_obj k2 v2 tl2
    simp only [printObjItems, JsonObj.fsize, List.length_cons, List.length_append] at *
    omega
termination_by sizeOf (JsonObj.cons k v tl)

end

/-- The utility module's `encode`: `JSON.stringify`, UTF-8 encode, binary
string, `btoa`, the two URL-safe replacements, and padding strip. -/
def encode (j : Json) : String :=
  ⟨stripEq (toUrlSafe (btoa (utf8Encode (printJson j))))⟩

/-- The utility module's `decode`: the inverse replacements, re-padding,
`atob`, byte extraction, `TextDecoder`, `JSON.parse`.  Any platform error
(bad base64, malformed UTF-8, unparsable JSON) is `none`. -/
def decode (s : String) : Option Json :=
  match atob (padTo4 (fromUrlSafe s.data)) with
  | none => none
  | some bytes =>
    match utf8Decode bytes with
    | none => none
    | some chars =>
      match parseVal (chars.length + 1) chars with
      | some (j, []) => some j
      | _ => none

/-- C8: for every JSON-serializable object, `decode (encode obj) = obj`:
the URL-safe base64 encoding (`'+'` to `'-'`, `'/'` to `'_'`, padding
stripped) composed with `JSON.stringify`/UTF-8 is inverted exactly by
`decode`. -/
theorem decode_encode (j : Json) : decode (encode j) = some j := by
  obtain ⟨C, k, hB, hk, hmem, hlen⟩ := btoa_shape (utf8Encode (printJson j))
  have hdata : (encode j).data = stripEq (toUrlSafe (btoa (utf8Encode (printJson j)))) := rfl
  have h1 : toUrlSafe (btoa (utf8Encode (printJson j))) =
      toUrlSafe C ++ List.replicate k '=' := by
    rw [hB]
    unfold toUrlSafe
    rw [List.map_append, List.map_replicate, show plusToMinus '=' = '=' from by decide,
      List.map_append, List.map_replicate, show slashToUnderscore '=' = '=' from by decide]
  have hmem2 : ∀ c ∈ toUrlSafe C, ¬ c = '=' := by
    intro c hc
    unfold toUrlSafe at hc
    rw [List.mem_map] at hc
    rcases hc with ⟨c1, hc1, hc1e⟩
    rw [List.mem_map] at hc1
    rcases hc1 with ⟨c0, hc0, hc0e⟩
    have hina : c0 ∈ b64Alphabet := hmem c0 hc0
    have hall : b64Alphabet.all
        (fun x => !(slashToUnderscore (plusToMinus x) == '=')) = true := by decide
    have hne := List.all_eq_true.mp hall c0 hina
    rw [← hc1e, ← hc0e]
    simpa using hne
  have h2 : stripEq (toUrlSafe C ++ List.replicate k '=') = toUrlSafe C :=
    stripEq_append _ _ hmem2
  have h3 : fromUrlSafe (toUrlSafe C) = C := fromUrlSafe_toUrlSafe C hmem
  have h4 : padTo4 C = C ++ List.replicate k '=' := by
    unfold padTo4
    rw [show (4 - C.length % 4) % 4 = k from by omega]
  have h5 : atob (C ++ List.replicate k '=') = some (utf8Encode (printJson j)) := by
    rw [← hB]
    exact atob_btoa _ (utf8Encode_lt (printJson j))
  have h6 : utf8Decode (utf8Encode (printJson j)) = some (printJson j) :=
    utf8Decode_encode (printJson j)
  have h7 : parseVal ((printJson j).length + 1) (printJson j) = some (j, []) := by
    have hp := parse_print_val j ((printJson j).length + 1) []
      (by have := fsize_le_len_val j; omega) (by simp [noDigitHead])
    rwa [List.append_nil] at hp
  unfold decode
  rw [hdata, h1, h2, h3, h4, h5]
  dsimp only
  rw [h6]
  dsimp only
  rw [h7]

end YTPTube
